import Mathlib

/-!
Verification of the aicheckin commit pipeline
(`src/vc_commit_helper`: `grouping/change_classifier.py`,
`grouping/group_model.py`, `llm/commit_message_generator.py`,
`llm/ollama_client.py`).

Python `str` is modeled as `List Char`.  Case folding and the regex
character classes `\s`/`\w` are modeled on their ASCII fragment, and
`str.splitlines` is modeled with `'\n'` as the only line terminator;
the diffs, paths and messages the pipeline handles are ASCII text with
`'\n'` newlines, which these models reproduce exactly.
-/

namespace Aicheckin

/-- ASCII fragment of Python whitespace (`str.strip`, regex `\s`):
space, tab, newline, carriage return, vertical tab, form feed. -/
def isPySpace (c : Char) : Bool :=
  c = ' ' || c = '\t' || c = '\n' || c = '\r' || c = Char.ofNat 11 || c = Char.ofNat 12

/-- ASCII lower-casing of one character (`str.lower`, `re.IGNORECASE`). -/
def lowerC (c : Char) : Char :=
  if 'A' ≤ c ∧ c ≤ 'Z' then Char.ofNat (c.toNat + 32) else c

/-- ASCII lower-casing of a string (`str.lower`). -/
def lowerL (l : List Char) : List Char := l.map lowerC

/-- Python `str.lstrip()`. -/
def stripLeft (l : List Char) : List Char := l.dropWhile isPySpace

/-- Python `str.rstrip()`. -/
def stripRight (l : List Char) : List Char := (l.reverse.dropWhile isPySpace).reverse

/-- Python `str.strip()`. -/
def pyStrip (l : List Char) : List Char := stripRight (stripLeft l)

/-- Split on a separator character, keeping empty segments
(`"a//b"` gives `["a", "", "b"]`, `""` gives `[""]`; Python `str.split(sep)`). -/
def splitOnCh (sep : Char) : List Char → List (List Char)
  | [] => [[]]
  | c :: rest =>
    if c = sep then [] :: splitOnCh sep rest
    else
      match splitOnCh sep rest with
      | [] => [[c]]
      | s :: ss => (c :: s) :: ss

/-- Python `str.splitlines()` with `'\n'` as the only terminator:
`""` gives `[]`, a trailing newline does not produce a trailing empty line. -/
def splitlinesL (l : List Char) : List (List Char) :=
  if l = [] then []
  else if (splitOnCh '\n' l).getLast? = some [] then (splitOnCh '\n' l).dropLast
  else splitOnCh '\n' l

/-- Python `"\n".join(lines)`. -/
def joinNL : List (List Char) → List Char
  | [] => []
  | [l] => l
  | l :: l' :: ls => l ++ '\n' :: joinNL (l' :: ls)

/-- The non-root components of `pathlib.Path(p)`: split on `'/'`,
dropping empty and `"."` segments (as pathlib's parser does). -/
def pySegs (p : List Char) : List (List Char) :=
  (splitOnCh '/' p).filter fun s => !(s.isEmpty) && s ≠ ['.']

/-- Model of `pathlib.Path(p).parts` (a leading `"/"` part for absolute paths). -/
def pyParts (p : List Char) : List (List Char) :=
  if p.head? = some '/' then ['/'] :: pySegs p else pySegs p

/-- Model of `pathlib.Path(p).name`. -/
def pyName (p : List Char) : List Char := (pySegs p).getLastD []

/-- Model of `pathlib.Path(p).suffix`: the extension of the final component,
empty when the name has no dot, starts with its only dot, or ends in a dot. -/
def pySuffix (p : List Char) : List Char :=
  let nm := pyName p
  let aft := (nm.reverse.takeWhile (· ≠ '.')).reverse
  if aft.length + 1 < nm.length ∧ aft ≠ [] then '.' :: aft else []

/-! ## The classifier (`grouping/change_classifier.py`) -/

/-- The added/removed content lines collected by `classify_change`:
`[line for line in diff.splitlines() if line.startswith(('+', '-'))
and not line.startswith(('++', '--'))]`. -/
def changedLines (diff : List Char) : List (List Char) :=
  (splitlinesL diff).filter fun line =>
    ("+".toList.isPrefixOf line || "-".toList.isPrefixOf line) &&
    !("++".toList.isPrefixOf line || "--".toList.isPrefixOf line)

/-- Model of `minus_lines = [line[1:] for line in changed_lines if line.startswith('-')]`. -/
def minusLines (diff : List Char) : List (List Char) :=
  ((changedLines diff).filter fun l => "-".toList.isPrefixOf l).map List.tail

/-- Model of `plus_lines = [line[1:] for line in changed_lines if line.startswith('+')]`. -/
def plusLines (diff : List Char) : List (List Char) :=
  ((changedLines diff).filter fun l => "+".toList.isPrefixOf l).map List.tail

/-- Model of `re.sub(r"\s", "", ln)`: remove all whitespace characters. -/
def stripWS (l : List Char) : List Char := l.filter fun c => !isPySpace c

/-- Model of `"".join(re.sub(r"\s", "", ln) for ln in lines)`. -/
def concatStripWS (lines : List (List Char)) : List Char :=
  (lines.map stripWS).foldr (· ++ ·) []

/-- ASCII regex `\w` (for the `\b` boundaries of the keyword patterns). -/
def isWordChar (c : Char) : Bool :=
  ('a' ≤ c && c ≤ 'z') || ('A' ≤ c && c ≤ 'Z') || ('0' ≤ c && c ≤ '9') || c = '_'

/-- The pattern occurs literally at position `i` of `s`. -/
def occursAt (pat s : List Char) (i : Nat) : Bool := pat.isPrefixOf (s.drop i)

/-- Regex `\b` holds just before position `i` together with a word
character at `i` (all our patterns start with a word character). -/
def boundaryBefore (s : List Char) (i : Nat) : Bool :=
  match i with
  | 0 => true
  | j + 1 =>
    match (s.drop j).head? with
    | some c => !isWordChar c
    | none => true

/-- Regex `\b` holds just after a match ending at position `i`
(all our patterns end with a word character). -/
def boundaryAfter (s : List Char) (i : Nat) : Bool :=
  match (s.drop i).head? with
  | some c => !isWordChar c
  | none => true

/-- Search: some position of `s` satisfies `f`. -/
def searchPos (s : List Char) (f : Nat → Bool) : Bool :=
  (List.range (s.length + 1)).any f

/-- Model of `re.search(r"\bw\b", s)` for a single word `w`. -/
def searchWord (w : List Char) (s : List Char) : Bool :=
  searchPos s fun i => boundaryBefore s i && occursAt w s i && boundaryAfter s (i + w.length)

/-- Model of `re.search(r"\bfix(e[ds])?|bug|error|issue|patch|hotfix\b", diff, re.IGNORECASE)`
on lowered text.  The alternation binds the boundaries only to the first and
last branches, and the optional group makes `\bfix` alone decisive. -/
def searchFix (s : List Char) : Bool :=
  searchPos s fun i =>
    (boundaryBefore s i && occursAt "fix".toList s i) ||
    occursAt "bug".toList s i || occursAt "error".toList s i ||
    occursAt "issue".toList s i || occursAt "patch".toList s i ||
    (occursAt "hotfix".toList s i && boundaryAfter s (i + 6))

/-- Model of `re.search(r"\bperf(ormance)?\b", ...)` on lowered text. -/
def searchPerf (s : List Char) : Bool :=
  searchPos s fun i =>
    boundaryBefore s i &&
    ((occursAt "performance".toList s i && boundaryAfter s (i + 11)) ||
     (occursAt "perf".toList s i && boundaryAfter s (i + 4)))

/-- Model of `re.search(r"\bfeat(ure)?\b", ...)` on lowered text. -/
def searchFeat (s : List Char) : Bool :=
  searchPos s fun i =>
    boundaryBefore s i &&
    ((occursAt "feature".toList s i && boundaryAfter s (i + 7)) ||
     (occursAt "feat".toList s i && boundaryAfter s (i + 4)))

/-- Model of `re.search(r"\bclass\b|\bdef\b|\bfunction\b", ...)` on lowered text. -/
def searchCodeStructure (s : List Char) : Bool :=
  searchWord "class".toList s || searchWord "def".toList s || searchWord "function".toList s

/-- Model of `classify_change(file_path, diff)` from `grouping/change_classifier.py`. -/
def classify_change (file_path diff : List Char) : List Char :=
  if lowerL (pySuffix file_path) = ".md".toList ∨ lowerL (pySuffix file_path) = ".rst".toList ∨
     lowerL (pySuffix file_path) = ".txt".toList ∨ lowerL (pySuffix file_path) = ".adoc".toList then
    "docs".toList
  else if ("test_".toList.isPrefixOf (pyName file_path)) = true ∨
          ("_test.py".toList.isSuffixOf (pyName file_path)) = true ∨
          "tests".toList ∈ pyParts file_path then
    "test".toList
  else if pyName file_path = "Dockerfile".toList ∨
          pyName file_path = "docker-compose.yml".toList ∨
          pySuffix file_path = ".yaml".toList ∨ pySuffix file_path = ".yml".toList then
    if ".github".toList ∈ pyParts file_path then "ci".toList else "build".toList
  else if changedLines diff ≠ [] ∧ minusLines diff ≠ [] ∧ plusLines diff ≠ [] ∧
          concatStripWS (minusLines diff) = concatStripWS (plusLines diff) then
    "style".toList
  else if changedLines diff ≠ [] ∧
          (changedLines diff).all (fun l => (stripWS l.tail).isEmpty) then
    "style".toList
  else if searchFix (lowerL diff) then "fix".toList
  else if searchWord "refactor".toList (lowerL diff) then "refactor".toList
  else if searchPerf (lowerL diff) then "perf".toList
  else if searchFeat (lowerL diff) then "feat".toList
  else if searchCodeStructure (lowerL diff) ∧ '+' ∈ diff then "feat".toList
  else "other".toList

/-! ## The response normalizer / extractor (`llm/commit_message_generator.py`) -/

/-- The commit types of `_extract_commit_message`'s pattern
`^\s*\[?(feat|fix|docs|style|refactor|test|chore|perf|ci|build|revert)\]?:\s+`
(it does not list `other`). -/
def extractTypes : List (List Char) :=
  ["feat", "fix", "docs", "style", "refactor", "test", "chore", "perf", "ci",
   "build", "revert"].map String.toList

/-- The commit types of `_normalize_message`'s pattern
`^\[?(feat|fix|docs|style|refactor|test|chore|perf|ci|build|revert|other)\]?:\s+`. -/
def normalizeTypes : List (List Char) :=
  ["feat", "fix", "docs", "style", "refactor", "test", "chore", "perf", "ci",
   "build", "revert", "other"].map String.toList

/-- The regex alternation over type words, case-insensitively, at the head of
`s`: the first listed type matching is returned (lowered, as `.group(1).lower()`)
together with the rest of `s`.  No listed type is a prefix of another, so at
most one can match and ordered alternation needs no backtracking. -/
def findType (types : List (List Char)) (s : List Char) : Option (List Char × List Char) :=
  match types with
  | [] => none
  | t :: ts => if lowerL (s.take t.length) = t then some (t, s.drop t.length) else findType ts s

/-- After the type word: optional `']'`, then `':'`, then one whitespace
character, then greedily consumed further whitespace (regex `\]?:\s+`). -/
def parseAfterType (t r1 : List Char) : Option (List Char × List Char) :=
  match (if r1.head? = some ']' then r1.tail else r1) with
  | c1 :: c2 :: r4 =>
    if c1 = ':' ∧ isPySpace c2 = true then some (t, r4.dropWhile isPySpace) else none
  | _ => none

/-- Model of `re.match(r'^\[?(T1|...|Tn)\]?:\s+', s, re.IGNORECASE)`: optional `'['`,
a type word, optional `']'`, `':'`, then at least one whitespace character
(consumed greedily).  Returns the lowered type and the text after the match.
Committing to the optional brackets needs no backtracking: a type word never
starts with `'['`, and `']'` can never begin the required `':'`. -/
def parseTypeTag (types : List (List Char)) (s : List Char) : Option (List Char × List Char) :=
  (findType types (if s.head? = some '[' then s.tail else s)).bind fun p =>
    parseAfterType p.1 p.2

/-- Model of `re.match(rf'^\[{re.escape(group_type)}\]:\s+', s, re.IGNORECASE)`. -/
def matchesBracketType (group_type s : List Char) : Bool :=
  lowerL (s.take (group_type.length + 3)) = '[' :: (lowerL group_type ++ [']', ':']) &&
  (match (s.drop (group_type.length + 3)).head? with
   | some c => isPySpace c
   | none => false)

/-- Model of `CommitMessageGenerator._normalize_message(message, group_type)`; the
`ValueError` raises on empty input are modeled as `.error ()`. -/
def normalize_message (message group_type : List Char) : Except Unit (List Char) :=
  if pyStrip message = [] then .error ()
  else
    match splitlinesL message with
    | [] => .error ()
    | l0 :: rest =>
      match parseTypeTag normalizeTypes (pyStrip l0) with
      | some (t, r) =>
        if t = lowerL group_type then
          if matchesBracketType group_type (pyStrip l0) then .ok message
          else .ok ('[' :: group_type ++ "]: ".toList ++ pyStrip r ++ '\n' :: joinNL rest)
        else .ok ('[' :: group_type ++ "]: ".toList ++ pyStrip r ++ '\n' :: joinNL rest)
      | none => .ok ('[' :: group_type ++ "]: ".toList ++ pyStrip l0 ++ '\n' :: joinNL rest)

/-- Model of `needle in hay` for Python strings. -/
def containsSub (needle hay : List Char) : Bool :=
  (List.range (hay.length + 1)).any fun i => needle.isPrefixOf (hay.drop i)

/-- The `thinking_markers` denylist of `_extract_commit_message`. -/
def thinkingMarkers : List (List Char) :=
  ["let me", "i will", "i\x27ll", "first,", "based on", "looking at", "analyzing",
   "the changes show", "here\x27s the", "here is the", "now write", "writing the",
   "i see that", "i can see"].map String.toList

/-- Model of `any(marker in lower_line[:40] for marker in thinking_markers)`. -/
def isMetaPrefix40 (lowered : List Char) : Bool :=
  thinkingMarkers.any fun m => containsSub m (lowered.take 40)

/-- Model of `re.match(commit_type_pattern, stripped, re.IGNORECASE)` of the first
extraction pass (the pattern's leading `\s*` consumes leading whitespace). -/
def matchesCommitType (s : List Char) : Bool :=
  (parseTypeTag extractTypes (s.dropWhile isPySpace)).isSome

/-- First extraction pass: find the first line matching the commit-type
pattern that is not meta-commentary; returns the lines from it on. -/
def extractPass1 : List (List Char) → Option (List (List Char))
  | [] => none
  | l :: ls =>
    let stripped := pyStrip l
    if stripped.isEmpty then extractPass1 ls
    else if matchesCommitType stripped && !isMetaPrefix40 (lowerL stripped) then some (l :: ls)
    else extractPass1 ls

/-- Second extraction pass: find the first short, substantial line (length in
`(15, 72]`, not ending in `':'`, no thinking marker) that is followed by body
structure (some non-blank line among the 2nd..9th following lines) or is the
last line; returns the lines from it on. -/
def extractPass2 : List (List Char) → Option (List (List Char))
  | [] => none
  | l :: ls =>
    let stripped := pyStrip l
    let lowered := lowerL stripped
    if stripped.isEmpty then extractPass2 ls
    else if thinkingMarkers.any (fun m => containsSub m lowered) then extractPass2 ls
    else if 72 < stripped.length then extractPass2 ls
    else if 15 < stripped.length && stripped.getLast? != some ':' then
      if ((ls.take 9).drop 1).any (fun nl => !(pyStrip nl).isEmpty) || ls.isEmpty then
        some (l :: ls)
      else extractPass2 ls
    else extractPass2 ls

/-- Model of `CommitMessageGenerator._extract_commit_message(raw_response)`; the
`ValueError` raise on empty input is modeled as `.error ()`. -/
def extract_commit_message (raw : List Char) : Except Unit (List Char) :=
  if pyStrip raw = [] then .error ()
  else
    match extractPass1 (splitlinesL raw) with
    | some suf => .ok (pyStrip (joinNL suf))
    | none =>
      match extractPass2 (splitlinesL raw) with
      | some suf => .ok (pyStrip (joinNL suf))
      | none => .ok (pyStrip raw)

/-! ## Thinking-tag stripping (`llm/ollama_client.py`) -/

/-- Case-insensitive literal prefix test. -/
def isPrefixOfCI (pat s : List Char) : Bool := lowerL (s.take pat.length) = lowerL pat

/-- Drop through the earliest case-insensitive occurrence of `pat`:
`some` of the text after that occurrence, `none` if `pat` does not occur. -/
def dropThroughCI (pat : List Char) : List Char → Option (List Char)
  | [] => if pat.isEmpty then some [] else none
  | s@(_ :: rest) =>
    if isPrefixOfCI pat s then some (s.drop pat.length) else dropThroughCI pat rest

/-- Engine of `re.sub(opn + '.*?' + cls, '', s, flags=re.DOTALL | re.IGNORECASE)`:
scan left to right; at a position starting with `opn` whose remainder contains
`cls`, delete through the earliest `cls` and continue after it.  The fuel is
only a termination device: each step consumes at least one character, so
`s.length + 1` fuel is never exhausted. -/
def removeTaggedFuel (opn cls : List Char) : Nat → List Char → List Char
  | 0, s => s
  | _ + 1, [] => []
  | fuel + 1, s@(c :: rest) =>
    if isPrefixOfCI opn s then
      match dropThroughCI cls (s.drop opn.length) with
      | some s' => removeTaggedFuel opn cls fuel s'
      | none => c :: removeTaggedFuel opn cls fuel rest
    else c :: removeTaggedFuel opn cls fuel rest

/-- Model of `re.sub(opn + '.*?' + cls, '', s, flags=re.DOTALL | re.IGNORECASE)`. -/
def removeTagged (opn cls s : List Char) : List Char :=
  removeTaggedFuel opn cls (s.length + 1) s

/-- Model of `strip_thinking_tags(text)` from `llm/ollama_client.py`: remove the four
tag pairs in order, then strip. -/
def strip_thinking_tags (text : List Char) : List Char :=
  let r1 := removeTagged "<think>".toList "</think>".toList text
  let r2 := removeTagged "<thinking>".toList "</thinking>".toList r1
  let r3 := removeTagged "<thought>".toList "</thought>".toList r2
  let r4 := removeTagged "<reasoning>".toList "</reasoning>".toList r3
  pyStrip r4

/-- The post-processing `OllamaClient.generate` applies to the text the server
returned before handing it to the generator: `.strip()` then
`strip_thinking_tags`. -/
def ollama_postprocess (raw : List Char) : List Char := strip_thinking_tags (pyStrip raw)

/-! ## The fallback message and the prompt (`llm/commit_message_generator.py`) -/

/-- The fallback subject line built in `generate_groups`:
`f"[{group_type}]: Changes to {len(files)} file{'s' if len(files) != 1 else ''}"`. -/
def fallback_subject (group_type : List Char) (n : Nat) : List Char :=
  '[' :: group_type ++ "]: Changes to ".toList ++ (Nat.repr n).toList ++
    " file".toList ++ (if n ≠ 1 then ['s'] else [])

/-- The fixed fallback description sentence. -/
def fallback_description : List Char :=
  ("Updated the following files to address functionality improvements and " ++
   "maintain code quality. Review the affected files for specific changes.").toList

/-- The complete fallback message assigned on any failure of the LLM path:
subject, blank line, description, blank line, one `"- <file>"` line per file. -/
def fallback_message (group_type : List Char) (files : List (List Char)) : List Char :=
  fallback_subject group_type files.length ++ "\n\n".toList ++ fallback_description ++
    "\n\n".toList ++ joinNL (files.map fun f => "- ".toList ++ f)

/-- Join with an arbitrary separator (`sep.join(parts)`). -/
def joinSep (sep : List Char) : List (List Char) → List Char
  | [] => []
  | [l] => l
  | l :: l' :: ls => l ++ sep ++ joinSep sep (l' :: ls)

/-- Space or tab: the characters `textwrap.dedent` treats as indentation. -/
def isIndentChar (c : Char) : Bool := c = ' ' || c = '\t'

/-- Longest common prefix of two strings. -/
def commonPrefix : List Char → List Char → List Char
  | a :: as, b :: bs => if a = b then a :: commonPrefix as bs else []
  | _, _ => []

/-- Model of `textwrap.dedent(text)`: whitespace-only lines are first emptied, the
margin is the longest common indentation of the remaining non-empty lines,
and every line starting with the margin loses it. -/
def dedentL (text : List Char) : List Char :=
  let segs := (splitOnCh '\n' text).map fun seg =>
    if !seg.isEmpty && seg.all isIndentChar then [] else seg
  let indents := (segs.filter fun s => !s.isEmpty).map fun s => s.takeWhile isIndentChar
  let margin := match indents with
    | [] => []
    | i :: is => is.foldl commonPrefix i
  let segs2 :=
    if margin.isEmpty then segs
    else segs.map fun s => if margin.isPrefixOf s then s.drop margin.length else s
  joinNL segs2

/-- The per-file block of `_build_prompt`'s `CHANGES TO ANALYZE` section. -/
def diffPart (diffs : List (List Char × List Char)) (file : List Char) : List Char :=
  let d := (diffs.lookup file).getD []
  if !d.isEmpty then
    let lines := changedLines d
    let context := if !lines.isEmpty then joinNL (lines.take 20) else "(no changes)".toList
    "File: ".toList ++ file ++ '\n' :: context
  else "File: ".toList ++ file ++ '\n' :: "(no diff available)".toList

/-- The f-string template of `_build_prompt` up to `{group_type}`. -/
def promptPiece1 : List Char :=
  ("\n            You are an expert software engineer writing commit messages.\n" ++
   "            Analyze the following changes and generate a commit message.\n\n" ++
   "            IMPORTANT: Output ONLY the commit message itself. Do NOT include:\n" ++
   "            - Any thinking process or reasoning\n" ++
   "            - Meta-commentary like \"Here\x27s the commit message\" or \"Let me analyze\"\n" ++
   "            - Explanations about how you arrived at the message\n" ++
   "            - Any text before or after the commit message\n" ++
   "            \n" ++
   "            Start your response directly with the commit message in the format below.\n\n" ++
   "            COMMIT MESSAGE FORMAT (strict):\n" ++
   "            Line 1: [").toList

/-- The template between `{group_type}` and `{diff_context}`. -/
def promptPiece2 : List Char :=
  ("]: <brief description max 10 words>\n" ++
   "            Line 2: (blank)\n" ++
   "            Lines 3-6: Detailed description of what changed, why it changed, and how the functionality is affected. \n" ++
   "                       Focus on the functional/behavioral impact, not just \"files were updated\".\n" ++
   "                       Describe what the code now does, why this change was needed, and what users/system will experience.\n" ++
   "            Line 7: (blank)\n" ++
   "            Lines 8+: Affected files, one per line with \"- \" pre" ++ "fix\n\n" ++
   "            CONTENT REQUIREMENTS:\n" ++
   "            - The subject line (line 1) MUST be concise and max 10 words\n" ++
   "            - The description (lines 3-6) MUST explain WHAT changed functionally, WHY it was needed, and HOW it affects behavior\n" ++
   "            - Do NOT write generic messages like \"update files\" or \"refactor code\"\n" ++
   "            - DO explain the actual functionality impact\n\n" ++
   "            CHANGES TO ANALYZE:\n" ++
   "            ").toList

/-- The template between `{diff_context}` and the file list. -/
def promptPiece3 : List Char :=
  ("\n\n            FILES AFFECTED:\n            ").toList

/-- The template after the file list. -/
def promptPiece4 : List Char :=
  ("\n\n            Write the commit message now (no preamble, just the message):\n            ").toList

/-- Model of `CommitMessageGenerator._build_prompt(group_type, files, diffs)`:
interpolate the template, `dedent`, `strip`. -/
def build_prompt (group_type : List Char) (files : List (List Char))
    (diffs : List (List Char × List Char)) : List Char :=
  let diff_context := joinSep "\n\n".toList (files.map (diffPart diffs))
  let file_list := joinNL (files.map fun f => "- ".toList ++ f)
  pyStrip (dedentL (promptPiece1 ++ group_type ++ promptPiece2 ++ diff_context ++
    promptPiece3 ++ file_list ++ promptPiece4))

/-! ## Grouping and orchestration (`generate_groups`, `group_model.py`) -/

/-- Model of `CommitGroup` from `grouping/group_model.py`. -/
structure CommitGroup where
  type : List Char
  files : List (List Char)
  message : List Char
  diffs : List (List Char × List Char)
deriving DecidableEq, Repr

/-- One step of `groups.setdefault(commit_type, []).append(file_path)` on an
insertion-ordered dict modeled as an association list. -/
def addToGroups : List (List Char × List (List Char)) → List Char → List Char →
    List (List Char × List (List Char))
  | [], t, p => [(t, [p])]
  | (t', fs) :: rest, t, p =>
    if t' = t then (t', fs ++ [p]) :: rest else (t', fs) :: addToGroups rest t p

/-- The `groups` dict built by the classification loop of `generate_groups`,
iterating the DiffMap in input order. -/
def groupsOf (diffs : List (List Char × List Char)) : List (List Char × List (List Char)) :=
  diffs.foldl (fun acc pd => addToGroups acc (classify_change pd.1 pd.2) pd.1) []

/-- The message computed for one group by the `try/except` body of
`generate_groups`: prompt, backend call `gen`, extraction, normalization; any
failure anywhere is replaced by the fallback message. -/
def group_message (gen : List Char → Except Unit (List Char))
    (diffs : List (List Char × List Char)) (group_type : List Char)
    (files : List (List Char)) : List Char :=
  match (gen (build_prompt group_type files diffs)).bind (fun raw =>
      (extract_commit_message raw).bind fun m => normalize_message m group_type) with
  | .ok m => m
  | .error _ => fallback_message group_type files

/-- Model of `CommitMessageGenerator.generate_groups(diffs)`, parameterized by the
backend call `gen` (`OllamaClient.generate`), whose failures (`LLMError` or
any exception) are modeled as `.error`. -/
def generate_groups (gen : List Char → Except Unit (List Char))
    (diffs : List (List Char × List Char)) : List CommitGroup :=
  (groupsOf diffs).map fun g =>
    { type := g.1, files := g.2, message := group_message gen diffs g.1 g.2,
      diffs := g.2.map fun f => (f, (diffs.lookup f).getD []) }

instance : DecidableEq (Except Unit (List Char)) := fun a b =>
  match a, b with
  | .error u, .error v => isTrue (by cases u; cases v; rfl)
  | .error _, .ok _ => isFalse (fun h => Except.noConfusion h)
  | .ok _, .error _ => isFalse (fun h => Except.noConfusion h)
  | .ok x, .ok y =>
    if h : x = y then isTrue (by rw [h]) else isFalse (fun hh => h (Except.ok.inj hh))

/-- First-seen order of the distinct elements of a list. -/
def firstSeen (l : List (List Char)) : List (List Char) :=
  l.foldl (fun seen t => if t ∈ seen then seen else seen ++ [t]) []

/-! ## Basic properties of the string model -/

theorem length_dropWhile_le' (p : Char → Bool) (l : List Char) :
    (l.dropWhile p).length ≤ l.length := by
  conv_rhs => rw [← List.takeWhile_append_dropWhile (p := p) (l := l)]
  rw [List.length_append]
  omega

theorem dropWhile_eq_self_of_length (p : Char → Bool) (l : List Char)
    (h : (l.dropWhile p).length = l.length) : l.dropWhile p = l := by
  have h2 := List.takeWhile_append_dropWhile (p := p) (l := l)
  have h3 : (l.takeWhile p).length + (l.dropWhile p).length = l.length := by
    rw [← List.length_append, h2]
  have h4 : l.takeWhile p = [] := List.eq_nil_of_length_eq_zero (by omega)
  conv_rhs => rw [← h2, h4]
  simp

theorem stripRight_decomp (l : List Char) :
    l = stripRight l ++ (l.reverse.takeWhile isPySpace).reverse := by
  unfold stripRight
  conv_lhs =>
    rw [← List.reverse_reverse l,
        ← List.takeWhile_append_dropWhile (p := isPySpace) (l := l.reverse)]
  rw [List.reverse_append]

theorem length_stripRight_le (l : List Char) : (stripRight l).length ≤ l.length := by
  unfold stripRight
  rw [List.length_reverse]
  calc (l.reverse.dropWhile isPySpace).length ≤ l.reverse.length :=
        length_dropWhile_le' _ _
    _ = l.length := List.length_reverse l

theorem stripRight_eq_self_of_length (l : List Char)
    (h : (stripRight l).length = l.length) : stripRight l = l := by
  unfold stripRight at *
  rw [List.length_reverse] at h
  have h2 : l.reverse.dropWhile isPySpace = l.reverse :=
    dropWhile_eq_self_of_length _ _ (by rw [h, List.length_reverse])
  rw [h2, List.reverse_reverse]

theorem of_pyStrip_eq_self {l : List Char} (h : pyStrip l = l) :
    l.dropWhile isPySpace = l ∧ stripRight l = l := by
  have h1 : (stripRight (l.dropWhile isPySpace)).length ≤ (l.dropWhile isPySpace).length :=
    length_stripRight_le _
  have h2 : (l.dropWhile isPySpace).length ≤ l.length := length_dropWhile_le' _ _
  have h3 : (pyStrip l).length = l.length := by rw [h]
  unfold pyStrip stripLeft at h3
  have h4 : l.dropWhile isPySpace = l :=
    dropWhile_eq_self_of_length _ _ (by omega)
  refine ⟨h4, ?_⟩
  have h5 : pyStrip l = stripRight l := by unfold pyStrip stripLeft; rw [h4]
  rw [← h5, h]

theorem mem_dropWhile' {a : Char} {p : Char → Bool} {l : List Char}
    (h : a ∈ l.dropWhile p) : a ∈ l := by
  have h2 : a ∈ l.takeWhile p ++ l.dropWhile p := List.mem_append_right _ h
  rwa [List.takeWhile_append_dropWhile] at h2

theorem mem_stripRight {a : Char} {l : List Char} (h : a ∈ stripRight l) : a ∈ l := by
  have h2 : a ∈ stripRight l ++ (l.reverse.takeWhile isPySpace).reverse :=
    List.mem_append_left _ h
  rwa [← stripRight_decomp l] at h2

theorem mem_pyStrip {a : Char} {l : List Char} (h : a ∈ pyStrip l) : a ∈ l :=
  mem_dropWhile' (mem_stripRight h)

theorem pyStrip_ne_nil_of_mem {c : Char} {l : List Char}
    (hc : c ∈ l) (hns : isPySpace c = false) : pyStrip l ≠ [] := by
  have h1 : c ∈ l.dropWhile isPySpace := by
    rcases List.mem_append.mp
        (by rw [List.takeWhile_append_dropWhile (p := isPySpace) (l := l)]; exact hc :
          c ∈ l.takeWhile isPySpace ++ l.dropWhile isPySpace) with h | h
    · exact absurd (List.mem_takeWhile_imp h) (by simp [hns])
    · exact h
  have h2 : c ∈ stripRight (l.dropWhile isPySpace) := by
    rcases List.mem_append.mp
        (by rw [← stripRight_decomp (l.dropWhile isPySpace)]; exact h1) with h | h
    · exact h
    · exfalso
      have h3 := List.mem_takeWhile_imp (List.mem_reverse.mp h)
      simp [hns] at h3
  exact List.ne_nil_of_mem h2

theorem pyStrip_eq_nil_of_all {l : List Char} (h : ∀ c ∈ l, isPySpace c = true) :
    pyStrip l = [] := by
  unfold pyStrip stripLeft
  have h1 : l.dropWhile isPySpace = [] := List.dropWhile_eq_nil_iff.mpr h
  rw [h1]
  rfl

theorem exists_not_space_of_pyStrip_ne_nil {l : List Char} (h : pyStrip l ≠ []) :
    ∃ c ∈ l, isPySpace c = false := by
  by_contra hall
  push_neg at hall
  exact h (pyStrip_eq_nil_of_all fun c hc => by
    have := hall c hc
    simpa using this)

theorem head?_stripRight {l : List Char} (h : stripRight l ≠ []) :
    (stripRight l).head? = l.head? := by
  conv_rhs => rw [stripRight_decomp l]
  rw [List.head?_append_of_ne_nil _ h]

theorem head_dropWhile_not_space {l : List Char} {c : Char} {r : List Char}
    (h : l.dropWhile isPySpace = c :: r) : isPySpace c = false := by
  have h1 := List.head?_dropWhile_not isPySpace l
  rw [h] at h1
  exact h1

theorem dropWhile_sp_idem (m : List Char) :
    (m.dropWhile isPySpace).dropWhile isPySpace = m.dropWhile isPySpace := by
  rcases hh : m.dropWhile isPySpace with _ | ⟨c, r⟩
  · rfl
  · have h1 : isPySpace c = false := head_dropWhile_not_space hh
    simp [List.dropWhile_cons, h1]

theorem stripRight_idem (l : List Char) : stripRight (stripRight l) = stripRight l := by
  unfold stripRight
  rw [List.reverse_reverse, dropWhile_sp_idem]

theorem pyStrip_idem (l : List Char) : pyStrip (pyStrip l) = pyStrip l := by
  unfold pyStrip stripLeft
  set x := l.dropWhile isPySpace with hx
  by_cases hnil : stripRight x = []
  · rw [hnil]; rfl
  · have h1 : (stripRight x).head? = x.head? := head?_stripRight hnil
    have h2 : (stripRight x).dropWhile isPySpace = stripRight x := by
      rcases hh : (stripRight x) with _ | ⟨c, r⟩
      · rfl
      · have h3 : x.head? = some c := by rw [← h1, hh]; rfl
        rcases List.head?_eq_some_iff.mp h3 with ⟨ys, hys⟩
        have h4 : isPySpace c = false := head_dropWhile_not_space (by rw [← hx, hys])
        simp [List.dropWhile_cons, h4]
    rw [h2, stripRight_idem]

theorem stripRight_append {a b : List Char} (hb : stripRight b ≠ []) :
    stripRight (a ++ b) = a ++ stripRight b := by
  unfold stripRight at *
  rw [List.reverse_append, List.dropWhile_append]
  have h1 : ¬(b.reverse.dropWhile isPySpace).isEmpty = true := by
    intro h
    exact hb (by rw [List.isEmpty_iff] at h; rw [h]; rfl)
  rw [if_neg h1, List.reverse_append, List.reverse_reverse]

theorem getLast?_pyStrip_not_space {s : List Char} (hs : pyStrip s = s)
    {c : Char} (hc : s.getLast? = some c) : isPySpace c = false := by
  have h1 : stripRight s = s := (of_pyStrip_eq_self hs).2
  have h2 : s.reverse.dropWhile isPySpace = s.reverse := by
    have := congrArg List.reverse h1
    unfold stripRight at this
    rwa [List.reverse_reverse] at this
  have h3 : s.reverse.head? = some c := by rw [List.head?_reverse]; exact hc
  rcases List.head?_eq_some_iff.mp h3 with ⟨ys, hys⟩
  exact head_dropWhile_not_space (by rw [h2, hys])

/-! ## Properties of line splitting and joining -/

theorem splitOnCh_ne_nil (sep : Char) (l : List Char) : splitOnCh sep l ≠ [] := by
  cases l with
  | nil => simp [splitOnCh]
  | cons c rest =>
    unfold splitOnCh
    by_cases h : c = sep
    · simp [h]
    · rw [if_neg h]
      rcases hh : splitOnCh sep rest with _ | ⟨s, ss⟩ <;> simp

theorem splitOnCh_head (sep : Char) (l : List Char) :
    ∃ ss, splitOnCh sep l = (l.takeWhile (· ≠ sep)) :: ss := by
  induction l with
  | nil => exact ⟨[], rfl⟩
  | cons c rest ih =>
    unfold splitOnCh
    by_cases h : c = sep
    · refine ⟨splitOnCh sep rest, ?_⟩
      rw [if_pos h]
      simp [List.takeWhile_cons, h]
    · rcases ih with ⟨ss, hss⟩
      rw [if_neg h, hss]
      refine ⟨ss, ?_⟩
      simp [List.takeWhile_cons, h]

theorem joinNL_cons {l : List Char} {ls : List (List Char)} (h : ls ≠ []) :
    joinNL (l :: ls) = l ++ '\n' :: joinNL ls := by
  cases ls with
  | nil => exact absurd rfl h
  | cons l' ls' => rfl

theorem splitOnCh_cons_sep {sep : Char} (rest : List Char) :
    splitOnCh sep (sep :: rest) = [] :: splitOnCh sep rest := by
  conv_lhs => rw [splitOnCh]
  rw [if_pos rfl]

theorem splitOnCh_cons_of_ne {sep c : Char} (rest : List Char) (h : c ≠ sep)
    {s : List Char} {ss : List (List Char)} (hq : splitOnCh sep rest = s :: ss) :
    splitOnCh sep (c :: rest) = (c :: s) :: ss := by
  unfold splitOnCh
  rw [if_neg h, hq]

theorem joinNL_splitOnCh (l : List Char) : joinNL (splitOnCh '\n' l) = l := by
  induction l with
  | nil => rfl
  | cons c rest ih =>
    by_cases h : c = '\n'
    · subst h
      rw [splitOnCh_cons_sep rest, joinNL_cons (splitOnCh_ne_nil _ _), ih]
      rfl
    · rcases hh : splitOnCh '\n' rest with _ | ⟨s, ss⟩
      · exact absurd hh (splitOnCh_ne_nil _ _)
      · rw [splitOnCh_cons_of_ne rest h hh]
        rw [hh] at ih
        cases ss with
        | nil =>
          simp only [joinNL] at ih ⊢
          rw [ih]
        | cons s' ss' =>
          rw [joinNL_cons (l := c :: s) (by simp : s' :: ss' ≠ [])]
          rw [joinNL_cons (by simp : s' :: ss' ≠ [])] at ih
          rw [List.cons_append, ih]

theorem splitOnCh_append {sep : Char} {x : List Char} (y : List Char) (hx : sep ∉ x) :
    splitOnCh sep (x ++ sep :: y) = x :: splitOnCh sep y := by
  induction x with
  | nil => simp [splitOnCh_cons_sep]
  | cons a x' ih =>
    have ha : a ≠ sep := fun h => hx (h ▸ List.mem_cons_self a x')
    have hx' : sep ∉ x' := fun h => hx (List.mem_cons_of_mem a h)
    rw [List.cons_append]
    exact splitOnCh_cons_of_ne _ ha (ih hx')

theorem mem_splitOnCh_not_sep {sep : Char} {s l : List Char}
    (h : s ∈ splitOnCh sep l) : sep ∉ s := by
  induction l generalizing s with
  | nil =>
    simp [splitOnCh] at h
    simp [h]
  | cons c rest ih =>
    unfold splitOnCh at h
    by_cases hc : c = sep
    · rw [if_pos hc] at h
      rcases List.mem_cons.mp h with h1 | h1
      · simp [h1]
      · exact ih h1
    · rw [if_neg hc] at h
      rcases hh : splitOnCh sep rest with _ | ⟨p, ps⟩
      · exact absurd hh (splitOnCh_ne_nil _ _)
      · rw [hh] at h
        rcases List.mem_cons.mp h with h1 | h1
        · subst h1
          intro hmem
          rcases List.mem_cons.mp hmem with h2 | h2
          · exact hc h2.symm
          · exact ih (hh ▸ List.mem_cons_self p ps) h2
        · exact ih (hh ▸ List.mem_cons_of_mem p h1)

theorem splitlinesL_append {x : List Char} (y : List Char) (hx : '\n' ∉ x) :
    splitlinesL (x ++ '\n' :: y) = x :: splitlinesL y := by
  have hne : x ++ '\n' :: y ≠ [] := by simp
  by_cases hy : y = []
  · subst hy
    rw [splitlinesL, if_neg hne, splitOnCh_append [] hx]
    have h0 : splitOnCh '\n' ([] : List Char) = [[]] := rfl
    rw [h0]
    have h1 : (x :: [[]] : List (List Char)).getLast? = some [] := by
      rw [show (x :: [[]] : List (List Char)) = [x] ++ [[]] from rfl, List.getLast?_append]
      rfl
    rw [if_pos h1]
    rw [show (x :: [[]] : List (List Char)) = [x] ++ [[]] from rfl, List.dropLast_concat]
    rfl
  · rw [splitlinesL, if_neg hne, splitOnCh_append y hx, splitlinesL, if_neg hy]
    have hpne : splitOnCh '\n' y ≠ [] := splitOnCh_ne_nil _ _
    have hlast : (x :: splitOnCh '\n' y).getLast? = (splitOnCh '\n' y).getLast? := by
      rcases hp : splitOnCh '\n' y with _ | ⟨p, ps⟩
      · exact absurd hp hpne
      · exact List.getLast?_cons_cons
    rw [hlast]
    by_cases hcase : (splitOnCh '\n' y).getLast? = some []
    · rw [if_pos hcase, if_pos hcase, List.dropLast_cons_of_ne_nil hpne]
    · rw [if_neg hcase, if_neg hcase]

theorem splitlinesL_head_takeWhile {m l0 : List Char} {rest : List (List Char)}
    (h : splitlinesL m = l0 :: rest) : l0 = m.takeWhile (· ≠ '\n') := by
  have hm : m ≠ [] := by
    intro hm
    rw [hm] at h
    simp [splitlinesL] at h
  unfold splitlinesL at h
  rw [if_neg hm] at h
  rcases splitOnCh_head '\n' m with ⟨ss, hss⟩
  rw [hss] at h
  by_cases hcase : ((m.takeWhile (· ≠ '\n')) :: ss).getLast? = some []
  · rw [if_pos hcase] at h
    cases ss with
    | nil => simp at h
    | cons s' ss' =>
      rw [List.dropLast_cons_of_ne_nil (by simp)] at h
      exact (List.cons.injEq .. ▸ h).1.symm
  · rw [if_neg hcase] at h
    exact (List.cons.injEq .. ▸ h).1.symm

theorem mem_splitlinesL_no_newline {l m : List Char}
    (h : l ∈ splitlinesL m) : '\n' ∉ l := by
  by_cases hm : m = []
  · rw [hm] at h
    simp [splitlinesL] at h
  · unfold splitlinesL at h
    rw [if_neg hm] at h
    by_cases hcase : (splitOnCh '\n' m).getLast? = some []
    · rw [if_pos hcase] at h
      exact mem_splitOnCh_not_sep ((List.dropLast_sublist _).mem h)
    · rw [if_neg hcase] at h
      exact mem_splitOnCh_not_sep h

theorem joinNL_append_nil {xs : List (List Char)} (h : xs ≠ []) :
    joinNL (xs ++ [[]]) = joinNL xs ++ ['\n'] := by
  induction xs with
  | nil => exact absurd rfl h
  | cons x xs' ih =>
    cases xs' with
    | nil => rfl
    | cons x' xs'' =>
      rw [List.cons_append, joinNL_cons (by simp), joinNL_cons (by simp), ih (by simp)]
      simp

theorem joinNL_splitlinesL (m : List Char) :
    m = joinNL (splitlinesL m) ∨ m = joinNL (splitlinesL m) ++ ['\n'] := by
  by_cases hm : m = []
  · left
    rw [hm]
    rfl
  · unfold splitlinesL
    rw [if_neg hm]
    by_cases hcase : (splitOnCh '\n' m).getLast? = some []
    · right
      rw [if_pos hcase]
      have h1 : splitOnCh '\n' m ≠ [] := splitOnCh_ne_nil _ _
      have h2 : (splitOnCh '\n' m).dropLast ++ [[]] = splitOnCh '\n' m := by
        have h3 := List.dropLast_append_getLast? _ hcase
        exact h3
      have h4 : (splitOnCh '\n' m).dropLast ≠ [] := by
        intro h5
        rw [h5] at h2
        have h6 : joinNL (splitOnCh '\n' m) = m := joinNL_splitOnCh m
        rw [← h2] at h6
        exact hm (h6.symm.trans rfl)
      conv_lhs => rw [← joinNL_splitOnCh m, ← h2]
      rw [joinNL_append_nil h4]
    · left
      rw [if_neg hcase]
      exact (joinNL_splitOnCh m).symm

theorem joinNL_tail_isSuffix (l : List (List Char)) :
    ∃ t, t ++ joinNL l.tail = joinNL l := by
  cases l with
  | nil => exact ⟨[], rfl⟩
  | cons a rest =>
    cases rest with
    | nil => exact ⟨joinNL [a], by simp [joinNL]⟩
    | cons b bs => exact ⟨a ++ ['\n'], by rw [joinNL_cons (by simp)]; simp⟩

theorem joinNL_drop_isSuffix (i : Nat) (l : List (List Char)) :
    ∃ t, t ++ joinNL (l.drop i) = joinNL l := by
  induction i generalizing l with
  | zero => exact ⟨[], rfl⟩
  | succ j ih =>
    cases l with
    | nil => exact ⟨[], rfl⟩
    | cons a rest =>
      rcases ih rest with ⟨t1, ht1⟩
      rcases joinNL_tail_isSuffix (a :: rest) with ⟨t2, ht2⟩
      exact ⟨t2 ++ t1, by rw [List.drop_succ_cons, List.append_assoc, ht1]; exact ht2⟩

/-! ## Properties of the type-prefix parser -/

theorem normalizeTypes_lower : ∀ t ∈ normalizeTypes, lowerL t = t := by decide

theorem normalizeTypes_take :
    ∀ t ∈ normalizeTypes, ∀ c ∈ normalizeTypes, c.take t.length = t → t = c := by decide

theorem normalizeTypes_no_rbracket : ∀ t ∈ normalizeTypes, ']' ∉ t := by decide

theorem normalizeTypes_no_newline : ∀ t ∈ normalizeTypes, '\n' ∉ t := by decide

/-- If a listed type word matches (case-insensitively) at the start of
`c ++ ']' :: u` for a listed type `c`, it is `c` itself: it cannot extend past
`c` because `']'` is not a letter of any type word, and it cannot be a proper
prefix of `c` because no two listed types are prefixes of one another. -/
theorem lower_take_bracket_eq {t c : List Char} (u : List Char)
    (ht : t ∈ normalizeTypes) (hc : c ∈ normalizeTypes)
    (h : lowerL ((c ++ ']' :: u).take t.length) = t) : t = c := by
  rcases le_or_lt t.length c.length with hle | hlt
  · rw [List.take_append_of_le_length hle] at h
    unfold lowerL at h
    rw [List.map_take] at h
    have h2 : List.map lowerC c = c := normalizeTypes_lower c hc
    rw [h2] at h
    exact normalizeTypes_take t ht c hc h
  · have hn : t.length = c.length + (t.length - c.length) := by omega
    rw [hn, List.take_append] at h
    have hk : t.length - c.length = (t.length - c.length - 1) + 1 := by omega
    rw [hk, List.take_succ_cons] at h
    unfold lowerL at h
    rw [List.map_append, List.map_cons] at h
    have h3 : lowerC ']' = ']' := by decide
    rw [h3] at h
    have h4 : ']' ∈ t := by
      rw [← h]
      exact List.mem_append_right _ (List.mem_cons_self _ _)
    exact absurd h4 (normalizeTypes_no_rbracket t ht)

theorem findType_self_aux {c : List Char} (u : List Char) (hc : c ∈ normalizeTypes) :
    ∀ ts : List (List Char), (∀ x ∈ ts, x ∈ normalizeTypes) → c ∈ ts →
      findType ts (c ++ ']' :: u) = some (c, ']' :: u) := by
  intro ts
  induction ts with
  | nil =>
    intro _ hmem
    exact absurd hmem (List.not_mem_nil c)
  | cons t ts' ih =>
    intro hsub hmem
    by_cases hteq : t = c
    · subst hteq
      have h1 : (t ++ ']' :: u).take t.length = t := List.take_left t (']' :: u)
      have h2 : lowerL ((t ++ ']' :: u).take t.length) = t := by
        rw [h1]
        exact normalizeTypes_lower t hc
      simp only [findType, if_pos h2]
      rw [List.drop_left]
    · have h3 : ¬ lowerL ((c ++ ']' :: u).take t.length) = t := by
        intro h4
        exact hteq (lower_take_bracket_eq u (hsub t (List.mem_cons_self t ts')) hc h4)
      simp only [findType, if_neg h3]
      refine ih (fun x hx => hsub x (List.mem_cons_of_mem t hx)) ?_
      rcases List.mem_cons.mp hmem with h5 | h5
      · exact absurd h5.symm hteq
      · exact h5

theorem findType_self {c : List Char} (u : List Char) (hc : c ∈ normalizeTypes) :
    findType normalizeTypes (c ++ ']' :: u) = some (c, ']' :: u) :=
  findType_self_aux u hc normalizeTypes (fun _ hx => hx) hc

theorem findType_eq_drop {ts : List (List Char)} {s t r : List Char}
    (h : findType ts s = some (t, r)) : r = s.drop t.length := by
  induction ts with
  | nil => simp [findType] at h
  | cons t' ts' ih =>
    simp only [findType] at h
    by_cases hcond : lowerL (s.take t'.length) = t'
    · rw [if_pos hcond] at h
      have h2 : t' = t ∧ s.drop t'.length = r := by simpa using h
      rw [← h2.2, h2.1]
    · rw [if_neg hcond] at h
      exact ih h

theorem parseAfterType_eq2 (t r1 : List Char) (c1 c2 : Char) (r4 : List Char)
    (h : (if r1.head? = some ']' then r1.tail else r1) = c1 :: c2 :: r4) :
    parseAfterType t r1 =
      if c1 = ':' ∧ isPySpace c2 = true then some (t, r4.dropWhile isPySpace) else none := by
  unfold parseAfterType
  rw [h]

theorem parseAfterType_eq_nil {r1 : List Char} (t : List Char)
    (h : (if r1.head? = some ']' then r1.tail else r1) = []) :
    parseAfterType t r1 = none := by
  unfold parseAfterType
  rw [h]

theorem parseAfterType_eq_one {r1 : List Char} (t : List Char) {c1 : Char}
    (h : (if r1.head? = some ']' then r1.tail else r1) = [c1]) :
    parseAfterType t r1 = none := by
  unfold parseAfterType
  rw [h]

/-- Re-parsing the subject line the normalizer itself produced recovers the
category and the rest of the subject. -/
theorem parseTypeTag_bracket {c : List Char} (hc : c ∈ normalizeTypes)
    {s' : List Char} (hhead : s'.dropWhile isPySpace = s') :
    parseTypeTag normalizeTypes ('[' :: (c ++ (']' :: ':' :: ' ' :: s'))) = some (c, s') := by
  unfold parseTypeTag
  have h1 : (('[' :: (c ++ (']' :: ':' :: ' ' :: s'))).head? = some '[') := rfl
  rw [if_pos h1, List.tail_cons, findType_self (':' :: ' ' :: s') hc, Option.some_bind]
  have h2 : ((']' :: ':' :: ' ' :: s' : List Char).head? = some ']') := rfl
  have h4 := parseAfterType_eq2 c (']' :: ':' :: ' ' :: s') ':' ' ' s'
    (by rw [if_pos h2, List.tail_cons])
  have h3 : (':' : Char) = ':' ∧ isPySpace ' ' = true := by decide
  rw [if_pos h3] at h4
  rw [hhead] at h4
  exact h4

theorem parseTypeTag_decomp {types : List (List Char)} {s t r : List Char}
    (h : parseTypeTag types s = some (t, r)) :
    ∃ q r4, s = q ++ r4 ∧ r = r4.dropWhile isPySpace ∧
      ∃ cq, q.getLast? = some cq ∧ isPySpace cq = true := by
  unfold parseTypeTag at h
  rcases hft : findType types (if s.head? = some '[' then s.tail else s) with _ | ⟨tt, r1⟩
  · rw [hft] at h
    simp at h
  · rw [hft, Option.some_bind] at h
    have hpre0 : ∃ p0, s = p0 ++ (if s.head? = some '[' then s.tail else s) := by
      by_cases hh : s.head? = some '['
      · rcases List.head?_eq_some_iff.mp hh with ⟨ys, hys⟩
        refine ⟨['['], ?_⟩
        rw [if_pos hh]
        rw [hys, List.tail_cons]
        rfl
      · exact ⟨[], by rw [if_neg hh]; rfl⟩
    rcases hpre0 with ⟨p0, hp0⟩
    have hr1 : ∃ p1, (if s.head? = some '[' then s.tail else s) = p1 ++ r1 := by
      have hdrop := findType_eq_drop hft
      exact ⟨(if s.head? = some '[' then s.tail else s).take tt.length,
        by rw [hdrop, List.take_append_drop]⟩
    rcases hr1 with ⟨p1, hp1⟩
    have hr2 : ∃ p2, r1 = p2 ++ (if r1.head? = some ']' then r1.tail else r1) := by
      by_cases hh : r1.head? = some ']'
      · rcases List.head?_eq_some_iff.mp hh with ⟨ys, hys⟩
        refine ⟨[']'], ?_⟩
        rw [if_pos hh]
        rw [hys, List.tail_cons]
        rfl
      · exact ⟨[], by rw [if_neg hh]; rfl⟩
    rcases hr2 with ⟨p2, hp2⟩
    rcases hr3 : (if r1.head? = some ']' then r1.tail else r1) with _ | ⟨c1, rest1⟩
    · rw [parseAfterType_eq_nil tt hr3] at h
      simp at h
    · rcases rest1 with _ | ⟨c2, r4⟩
      · rw [parseAfterType_eq_one tt hr3] at h
        simp at h
      · rw [parseAfterType_eq2 tt _ _ _ _ hr3] at h
        by_cases hcond : c1 = ':' ∧ isPySpace c2 = true
        · rw [if_pos hcond] at h
          have ht4 : tt = t ∧ r4.dropWhile isPySpace = r := by simpa using h
          refine ⟨p0 ++ p1 ++ p2 ++ [c1, c2], r4, ?_, ht4.2.symm, ?_⟩
          · rw [hp0, hp1, hp2, hr3]
            simp
          · refine ⟨c2, ?_, hcond.2⟩
            rw [List.getLast?_append]
            rfl
        · rw [if_neg hcond] at h
          simp at h

/-- On a stripped, non-empty subject line, the text left after removing a
recognized type prefix strips to something non-empty (the line cannot end in
whitespace), and all its characters come from the subject line. -/
theorem parse_rest_props {s t r : List Char} (hs : pyStrip s = s)
    (h : parseTypeTag normalizeTypes s = some (t, r)) :
    pyStrip r ≠ [] ∧ ∀ a ∈ r, a ∈ s := by
  rcases parseTypeTag_decomp h with ⟨q, r4, hsqr, hr, cq, hlast, hsp⟩
  have hmem : ∀ a ∈ r, a ∈ s := by
    intro a ha
    rw [hsqr]
    exact List.mem_append_right _ (mem_dropWhile' (hr ▸ ha))
  refine ⟨?_, hmem⟩
  cases hrec : r with
  | nil =>
    exfalso
    rw [hrec] at hr
    have hall : ∀ x ∈ r4, isPySpace x = true := List.dropWhile_eq_nil_iff.mp hr.symm
    cases hr4 : r4 with
    | nil =>
      rw [hr4, List.append_nil] at hsqr
      have hlast2 : s.getLast? = some cq := by rw [hsqr]; exact hlast
      have := getLast?_pyStrip_not_space hs hlast2
      rw [hsp] at this
      cases this
    | cons d ds =>
      have hgl : (d :: ds).getLast? = some ((d :: ds).getLast (by simp)) :=
        List.getLast?_eq_getLast _ _
      have hmemg : (d :: ds).getLast (by simp) ∈ r4 := by
        rw [hr4]
        exact List.getLast_mem _
      have hglsp : isPySpace ((d :: ds).getLast (by simp)) = true := hall _ hmemg
      have hlast2 : s.getLast? = some ((d :: ds).getLast (by simp)) := by
        rw [hsqr, hr4, List.getLast?_append, hgl]
        rfl
      have := getLast?_pyStrip_not_space hs hlast2
      rw [hglsp] at this
      cases this
  | cons c0 r0 =>
    have hc0 : isPySpace c0 = false :=
      head_dropWhile_not_space (l := r4) (by rw [← hr]; exact hrec)
    exact pyStrip_ne_nil_of_mem (List.mem_cons_self c0 r0) hc0

theorem matchesBracketType_canonical {c : List Char} (hc : c ∈ normalizeTypes)
    (s' : List Char) :
    matchesBracketType c ('[' :: (c ++ (']' :: ':' :: ' ' :: s'))) = true := by
  unfold matchesBracketType
  have htake : ('[' :: (c ++ (']' :: ':' :: ' ' :: s'))).take (c.length + 3)
      = '[' :: (c ++ [']', ':']) := by
    rw [show c.length + 3 = (c.length + 2) + 1 from rfl, List.take_succ_cons,
        List.take_append]
    rfl
  have hdrop : ('[' :: (c ++ (']' :: ':' :: ' ' :: s'))).drop (c.length + 3)
      = ' ' :: s' := by
    rw [show c.length + 3 = (c.length + 2) + 1 from rfl, List.drop_succ_cons,
        List.drop_append]
    rfl
  rw [htake, hdrop]
  unfold lowerL
  rw [List.map_cons, List.map_append]
  have h1 : lowerC '[' = '[' := by decide
  have h2 : List.map lowerC [']', ':'] = [']', ':'] := by decide
  rw [h1, h2, show List.map lowerC c = lowerL c from rfl, normalizeTypes_lower c hc]
  simp [isPySpace]

/-- The normalizer's own rewritten output is a fixed point of the normalizer:
its subject line `"[c]: s'"` is re-parsed as category `c` with the already
correct bracket format, so the message is returned unchanged. -/
theorem normalize_message_fixpoint {c : List Char} (hc : c ∈ normalizeTypes)
    {s' : List Char} (hne : s' ≠ []) (hstr : pyStrip s' = s') (hnl : '\n' ∉ s')
    (y : List Char) :
    normalize_message (('[' :: c) ++ "]: ".toList ++ (s' ++ '\n' :: y)) c =
      .ok (('[' :: c) ++ "]: ".toList ++ (s' ++ '\n' :: y)) := by
  have hform : ('[' :: c) ++ "]: ".toList ++ (s' ++ '\n' :: y)
      = (('[' :: c) ++ "]: ".toList ++ s') ++ '\n' :: y := by simp
  have hlineform : ('[' :: c) ++ "]: ".toList ++ s'
      = '[' :: (c ++ (']' :: ':' :: ' ' :: s')) := by simp
  have hlnotin : '\n' ∉ ('[' :: c) ++ "]: ".toList ++ s' := by
    rw [hlineform]
    intro hmem
    rcases List.mem_cons.mp hmem with h1 | h1
    · cases h1
    rcases List.mem_append.mp h1 with h2 | h2
    · exact normalizeTypes_no_newline c hc h2
    rcases List.mem_cons.mp h2 with h3 | h3
    · cases h3
    rcases List.mem_cons.mp h3 with h4 | h4
    · cases h4
    rcases List.mem_cons.mp h4 with h5 | h5
    · cases h5
    · exact hnl h5
  have hsplit : splitlinesL ((('[' :: c) ++ "]: ".toList ++ s') ++ '\n' :: y)
      = (('[' :: c) ++ "]: ".toList ++ s') :: splitlinesL y :=
    splitlinesL_append y hlnotin
  have hsr : stripRight s' = s' := (of_pyStrip_eq_self hstr).2
  have hstrip0 : pyStrip (('[' :: c) ++ "]: ".toList ++ s')
      = ('[' :: c) ++ "]: ".toList ++ s' := by
    unfold pyStrip stripLeft
    rw [hlineform]
    have hdw : ('[' :: (c ++ (']' :: ':' :: ' ' :: s'))).dropWhile isPySpace
        = '[' :: (c ++ (']' :: ':' :: ' ' :: s')) := by
      rw [List.dropWhile_cons]
      simp [isPySpace]
    rw [hdw]
    have h5 : '[' :: (c ++ (']' :: ':' :: ' ' :: s')) = ('[' :: (c ++ [']', ':', ' '])) ++ s' := by
      simp
    rw [h5, stripRight_append (by rw [hsr]; exact hne), hsr, ← h5]
  have hparse : parseTypeTag normalizeTypes (pyStrip (('[' :: c) ++ "]: ".toList ++ s'))
      = some (c, s') := by
    rw [hstrip0, hlineform]
    exact parseTypeTag_bracket hc (of_pyStrip_eq_self hstr).1
  have hbrk : matchesBracketType c (pyStrip (('[' :: c) ++ "]: ".toList ++ s')) = true := by
    rw [hstrip0, hlineform]
    exact matchesBracketType_canonical hc s'
  have hne0 : ¬ pyStrip ((('[' :: c) ++ "]: ".toList ++ s') ++ '\n' :: y) = [] := by
    apply pyStrip_ne_nil_of_mem (c := '[')
    · rw [hlineform]
      exact List.mem_append_left _ (List.mem_cons_self _ _)
    · decide
  rw [hform]
  unfold normalize_message
  rw [if_neg hne0, hsplit]
  simp only [hparse, hbrk, normalizeTypes_lower c hc, if_pos rfl, if_true]

theorem except_bind_ok (a : List Char) (f : List Char → Except Unit (List Char)) :
    (Except.ok a : Except Unit (List Char)).bind f = f a := rfl

/-- Normalizing twice equals normalizing once, provided the first line of the
input does not strip to the empty string. -/
theorem normalize_message_idempotent {m c : List Char} (hc : c ∈ normalizeTypes)
    (hfl : pyStrip ((splitlinesL m).headD []) ≠ []) :
    (normalize_message m c).bind (fun r => normalize_message r c) = normalize_message m c := by
  rcases hsl : splitlinesL m with _ | ⟨l0, rest⟩
  · rw [hsl] at hfl
    exact absurd rfl hfl
  · have hfl0 : pyStrip l0 ≠ [] := by rw [hsl] at hfl; exact hfl
    have hl0m : ∃ ysfx, m = l0 ++ ysfx := by
      have h1 := splitlinesL_head_takeWhile hsl
      exact ⟨m.dropWhile (· ≠ '\n'), by rw [h1, List.takeWhile_append_dropWhile]⟩
    have hmne : ¬ pyStrip m = [] := by
      rcases exists_not_space_of_pyStrip_ne_nil hfl0 with ⟨c0, hc0m, hc0s⟩
      rcases hl0m with ⟨ysfx, hysfx⟩
      exact pyStrip_ne_nil_of_mem (by rw [hysfx]; exact List.mem_append_left _ hc0m) hc0s
    have hl0nl : '\n' ∉ l0 :=
      mem_splitlinesL_no_newline (by rw [hsl]; exact List.mem_cons_self _ _)
    have hsubnl : '\n' ∉ pyStrip l0 := fun hmem => hl0nl (mem_pyStrip hmem)
    rcases hp : parseTypeTag normalizeTypes (pyStrip l0) with _ | ⟨t, r⟩
    · have heval : normalize_message m c
          = .ok (('[' :: c) ++ "]: ".toList ++ (pyStrip l0 ++ '\n' :: joinNL rest)) := by
        unfold normalize_message
        rw [if_neg hmne, hsl]
        simp only [hp]
        simp [List.cons_append, List.append_assoc]
      rw [heval, except_bind_ok]
      exact normalize_message_fixpoint hc hfl0 (pyStrip_idem l0) hsubnl (joinNL rest)
    · by_cases ht : t = lowerL c
      · by_cases hbrk : matchesBracketType c (pyStrip l0) = true
        · have heval : normalize_message m c = .ok m := by
            unfold normalize_message
            rw [if_neg hmne, hsl]
            simp only [hp]
            rw [if_pos ht, if_pos hbrk]
          rw [heval, except_bind_ok]
          exact heval
        · rcases parse_rest_props (pyStrip_idem l0) hp with ⟨hrne, hrsub⟩
          have hrnl : '\n' ∉ pyStrip r := fun hmem => hsubnl (hrsub _ (mem_pyStrip hmem))
          have heval : normalize_message m c
              = .ok (('[' :: c) ++ "]: ".toList ++ (pyStrip r ++ '\n' :: joinNL rest)) := by
            unfold normalize_message
            rw [if_neg hmne, hsl]
            simp only [hp]
            rw [if_pos ht, if_neg hbrk]
            simp [List.cons_append, List.append_assoc]
          rw [heval, except_bind_ok]
          exact normalize_message_fixpoint hc hrne (pyStrip_idem r) hrnl (joinNL rest)
      · rcases parse_rest_props (pyStrip_idem l0) hp with ⟨hrne, hrsub⟩
        have hrnl : '\n' ∉ pyStrip r := fun hmem => hsubnl (hrsub _ (mem_pyStrip hmem))
        have heval : normalize_message m c
            = .ok (('[' :: c) ++ "]: ".toList ++ (pyStrip r ++ '\n' :: joinNL rest)) := by
          unfold normalize_message
          rw [if_neg hmne, hsl]
          simp only [hp]
          rw [if_neg ht]
          simp [List.cons_append, List.append_assoc]
        rw [heval, except_bind_ok]
        exact normalize_message_fixpoint hc hrne (pyStrip_idem r) hrnl (joinNL rest)

/-! ## Properties of grouping and the orchestrator -/

theorem addToGroups_flat (acc : List (List Char × List (List Char))) (t p : List Char) :
    ((addToGroups acc t p).flatMap Prod.snd).Perm ((acc.flatMap Prod.snd) ++ [p]) := by
  induction acc with
  | nil => simp [addToGroups]
  | cons g rest ih =>
    rcases g with ⟨t', fs⟩
    by_cases h : t' = t
    · simp only [addToGroups, if_pos h, List.flatMap_cons]
      rw [List.append_assoc, List.append_assoc]
      exact List.Perm.append_left fs List.perm_append_comm
    · simp only [addToGroups, if_neg h, List.flatMap_cons]
      rw [List.append_assoc]
      exact List.Perm.append_left fs ih

theorem groupsOf_foldl_flat (dm : List (List Char × List Char)) :
    ∀ acc, ((dm.foldl (fun acc pd => addToGroups acc (classify_change pd.1 pd.2) pd.1)
        acc).flatMap Prod.snd).Perm ((acc.flatMap Prod.snd) ++ dm.map Prod.fst) := by
  induction dm with
  | nil =>
    intro acc
    simp
  | cons pd dm' ih =>
    intro acc
    rw [List.foldl_cons, List.map_cons]
    have h2 := (addToGroups_flat acc (classify_change pd.1 pd.2) pd.1).append_right
      (dm'.map Prod.fst)
    have h3 : ((acc.flatMap Prod.snd ++ [pd.1]) ++ dm'.map Prod.fst)
        = acc.flatMap Prod.snd ++ (pd.1 :: dm'.map Prod.fst) := by simp
    rw [h3] at h2
    exact (ih _).trans h2

theorem groupsOf_flat_perm (dm : List (List Char × List Char)) :
    ((groupsOf dm).flatMap Prod.snd).Perm (dm.map Prod.fst) := by
  have h := groupsOf_foldl_flat dm []
  simpa [groupsOf] using h

theorem addToGroups_map_fst (acc : List (List Char × List (List Char))) (t p : List Char) :
    (addToGroups acc t p).map Prod.fst =
      if t ∈ acc.map Prod.fst then acc.map Prod.fst else acc.map Prod.fst ++ [t] := by
  induction acc with
  | nil => simp [addToGroups]
  | cons g rest ih =>
    rcases g with ⟨t', fs⟩
    by_cases h : t' = t
    · simp only [addToGroups, if_pos h, List.map_cons]
      rw [if_pos (by simp [h])]
    · simp only [addToGroups, if_neg h, List.map_cons, ih]
      by_cases hmem : t ∈ rest.map Prod.fst
      · rw [if_pos hmem, if_pos (List.mem_cons_of_mem _ hmem)]
      · rw [if_neg hmem, if_neg ?_]
        · simp
        · intro hx
          rcases List.mem_cons.mp hx with h1 | h1
          · exact h h1.symm
          · exact hmem h1

theorem groupsOf_foldl_fst (dm : List (List Char × List Char)) :
    ∀ acc, (dm.foldl (fun acc pd => addToGroups acc (classify_change pd.1 pd.2) pd.1)
        acc).map Prod.fst
      = dm.foldl (fun seen pd => if classify_change pd.1 pd.2 ∈ seen then seen
          else seen ++ [classify_change pd.1 pd.2]) (acc.map Prod.fst) := by
  induction dm with
  | nil =>
    intro acc
    rfl
  | cons pd dm' ih =>
    intro acc
    rw [List.foldl_cons, List.foldl_cons, ih, addToGroups_map_fst]

theorem groupsOf_fst_firstSeen (dm : List (List Char × List Char)) :
    (groupsOf dm).map Prod.fst = firstSeen (dm.map fun pd => classify_change pd.1 pd.2) := by
  have h := groupsOf_foldl_fst dm []
  unfold firstSeen
  rw [List.foldl_map]
  simpa [groupsOf] using h

theorem except_bind_eq_ok {α : Type} {a : Except Unit α} {f : α → Except Unit α} {v : α}
    (h : a.bind f = .ok v) : ∃ x, a = .ok x ∧ f x = .ok v := by
  cases a with
  | error e => simp [Except.bind] at h
  | ok x => exact ⟨x, rfl, h⟩

theorem normalize_message_ok_ne_nil {m c r : List Char}
    (h : normalize_message m c = .ok r) : r ≠ [] := by
  unfold normalize_message at h
  by_cases hs : pyStrip m = []
  · rw [if_pos hs] at h
    simp at h
  · rw [if_neg hs] at h
    rcases hsl : splitlinesL m with _ | ⟨l0, rest⟩
    · rw [hsl] at h
      simp at h
    · rw [hsl] at h
      rcases hp : parseTypeTag normalizeTypes (pyStrip l0) with _ | ⟨t, r1⟩
      · simp only [hp] at h
        injection h with h2
        rw [← h2]
        simp
      · simp only [hp] at h
        split at h
        · split at h
          · injection h with h2
            rw [← h2]
            intro h0
            rw [h0] at hs
            exact hs rfl
          · injection h with h2
            rw [← h2]
            simp
        · injection h with h2
          rw [← h2]
          simp

theorem fallback_message_ne_nil (t : List Char) (fs : List (List Char)) :
    fallback_message t fs ≠ [] := by
  unfold fallback_message fallback_subject
  simp

theorem group_message_ne_nil (gen : List Char → Except Unit (List Char))
    (dm : List (List Char × List Char)) (t : List Char) (fs : List (List Char)) :
    group_message gen dm t fs ≠ [] := by
  unfold group_message
  rcases hg : gen (build_prompt t fs dm) with e0 | raw
  · exact fallback_message_ne_nil t fs
  · have hb : (Except.ok raw : Except Unit (List Char)).bind (fun raw =>
        (extract_commit_message raw).bind fun m => normalize_message m t)
        = (extract_commit_message raw).bind fun m => normalize_message m t := rfl
    rw [hb]
    rcases he : extract_commit_message raw with e1 | m1
    · exact fallback_message_ne_nil t fs
    · have hb2 : (Except.ok m1 : Except Unit (List Char)).bind
          (fun m => normalize_message m t) = normalize_message m1 t := rfl
      rw [hb2]
      rcases hn : normalize_message m1 t with e2 | m2
      · exact fallback_message_ne_nil t fs
      · exact normalize_message_ok_ne_nil hn

theorem group_message_fallback {gen : List Char → Except Unit (List Char)}
    {dm : List (List Char × List Char)} {t : List Char} {fs : List (List Char)}
    (h : gen (build_prompt t fs dm) = .error ()) :
    group_message gen dm t fs = fallback_message t fs := by
  unfold group_message
  rw [h]
  rfl

theorem group_message_pipeline_error {gen : List Char → Except Unit (List Char)}
    {dm : List (List Char × List Char)} {t : List Char} {fs : List (List Char)}
    (h : (gen (build_prompt t fs dm)).bind (fun raw =>
        (extract_commit_message raw).bind fun m => normalize_message m t)
      = .error ()) :
    group_message gen dm t fs = fallback_message t fs := by
  unfold group_message
  rw [h]

/-! ## Properties of extraction -/

theorem splitlinesL_ne_nil {m : List Char} (hm : m ≠ []) : splitlinesL m ≠ [] := by
  unfold splitlinesL
  rw [if_neg hm]
  by_cases hcase : (splitOnCh '\n' m).getLast? = some []
  · rw [if_pos hcase]
    rcases hq : splitOnCh '\n' m with _ | ⟨x, xs⟩
    · exact absurd hq (splitOnCh_ne_nil _ _)
    · cases xs with
      | nil =>
        rw [hq] at hcase
        have hx : x = [] := by simpa using hcase
        have hj := joinNL_splitOnCh m
        rw [hq, hx] at hj
        exact absurd hj.symm hm
      | cons x' xs' =>
        rw [List.dropLast_cons_of_ne_nil (by simp)]
        simp
  · rw [if_neg hcase]
    exact splitOnCh_ne_nil _ _

theorem pyStrip_decomp (z : List Char) : ∃ u v, u ++ pyStrip z ++ v = z := by
  refine ⟨z.takeWhile isPySpace, ((z.dropWhile isPySpace).reverse.takeWhile isPySpace).reverse, ?_⟩
  unfold pyStrip stripLeft
  rw [List.append_assoc, ← stripRight_decomp (z.dropWhile isPySpace),
    List.takeWhile_append_dropWhile]

theorem pyStrip_joinNL_cons_ne {l0 : List Char} {tl : List (List Char)}
    (h : pyStrip l0 ≠ []) : pyStrip (joinNL (l0 :: tl)) ≠ [] := by
  rcases exists_not_space_of_pyStrip_ne_nil h with ⟨c0, hc0m, hc0s⟩
  apply pyStrip_ne_nil_of_mem (c := c0) ?_ hc0s
  cases tl with
  | nil => exact hc0m
  | cons t' tl' =>
    rw [joinNL_cons (by simp)]
    exact List.mem_append_left _ hc0m

theorem extractPass1_spec : ∀ (ls : List (List Char)) (suf : List (List Char)),
    extractPass1 ls = some suf →
    (∃ i, suf = ls.drop i) ∧ ∃ l0 tl, suf = l0 :: tl ∧ pyStrip l0 ≠ [] := by
  intro ls
  induction ls with
  | nil =>
    intro suf h
    simp [extractPass1] at h
  | cons l ls' ih =>
    intro suf h
    simp only [extractPass1] at h
    by_cases h1 : (pyStrip l).isEmpty = true
    · rw [if_pos h1] at h
      rcases ih suf h with ⟨⟨i, hi⟩, hrest⟩
      exact ⟨⟨i + 1, by rw [List.drop_succ_cons, hi]⟩, hrest⟩
    · rw [if_neg h1] at h
      by_cases h2 : (matchesCommitType (pyStrip l) && !isMetaPrefix40 (lowerL (pyStrip l))) = true
      · rw [if_pos h2] at h
        have hsuf : suf = l :: ls' := (Option.some.injEq .. ▸ h).symm
        refine ⟨⟨0, by rw [hsuf]; rfl⟩, l, ls', hsuf, ?_⟩
        intro h0
        exact h1 (by rw [h0]; rfl)
      · rw [if_neg h2] at h
        rcases ih suf h with ⟨⟨i, hi⟩, hrest⟩
        exact ⟨⟨i + 1, by rw [List.drop_succ_cons, hi]⟩, hrest⟩

theorem extractPass2_spec : ∀ (ls : List (List Char)) (suf : List (List Char)),
    extractPass2 ls = some suf →
    (∃ i, suf = ls.drop i) ∧ ∃ l0 tl, suf = l0 :: tl ∧ pyStrip l0 ≠ [] := by
  intro ls
  induction ls with
  | nil =>
    intro suf h
    simp [extractPass2] at h
  | cons l ls' ih =>
    intro suf h
    simp only [extractPass2] at h
    by_cases h1 : (pyStrip l).isEmpty = true
    · rw [if_pos h1] at h
      rcases ih suf h with ⟨⟨i, hi⟩, hrest⟩
      exact ⟨⟨i + 1, by rw [List.drop_succ_cons, hi]⟩, hrest⟩
    · rw [if_neg h1] at h
      by_cases h2 : (thinkingMarkers.any fun mk => containsSub mk (lowerL (pyStrip l))) = true
      · rw [if_pos h2] at h
        rcases ih suf h with ⟨⟨i, hi⟩, hrest⟩
        exact ⟨⟨i + 1, by rw [List.drop_succ_cons, hi]⟩, hrest⟩
      · rw [if_neg h2] at h
        by_cases h3 : 72 < (pyStrip l).length
        · rw [if_pos h3] at h
          rcases ih suf h with ⟨⟨i, hi⟩, hrest⟩
          exact ⟨⟨i + 1, by rw [List.drop_succ_cons, hi]⟩, hrest⟩
        · rw [if_neg h3] at h
          by_cases h4 : (15 < (pyStrip l).length && (pyStrip l).getLast? != some ':') = true
          · rw [if_pos h4] at h
            by_cases h5 : ((((ls'.take 9).drop 1).any fun nl => !(pyStrip nl).isEmpty)
                || ls'.isEmpty) = true
            · rw [if_pos h5] at h
              have hsuf : suf = l :: ls' := (Option.some.injEq .. ▸ h).symm
              refine ⟨⟨0, by rw [hsuf]; rfl⟩, l, ls', hsuf, ?_⟩
              have h6 : 15 < (pyStrip l).length := by
                have := (Bool.and_eq_true _ _).mp h4
                exact of_decide_eq_true this.1
              intro h0
              rw [h0] at h6
              simp at h6
            · rw [if_neg h5] at h
              rcases ih suf h with ⟨⟨i, hi⟩, hrest⟩
              exact ⟨⟨i + 1, by rw [List.drop_succ_cons, hi]⟩, hrest⟩
          · rw [if_neg h4] at h
            rcases ih suf h with ⟨⟨i, hi⟩, hrest⟩
            exact ⟨⟨i + 1, by rw [List.drop_succ_cons, hi]⟩, hrest⟩

theorem no_newline_subject {c s' : List Char} (hc : c ∈ normalizeTypes) (hnl : '\n' ∉ s') :
    '\n' ∉ ('[' :: c) ++ "]: ".toList ++ s' := by
  have hform : ('[' :: c) ++ "]: ".toList ++ s' = '[' :: (c ++ (']' :: ':' :: ' ' :: s')) := by
    simp
  rw [hform]
  intro hmem
  rcases List.mem_cons.mp hmem with h1 | h1
  · cases h1
  rcases List.mem_append.mp h1 with h2 | h2
  · exact normalizeTypes_no_newline c hc h2
  rcases List.mem_cons.mp h2 with h3 | h3
  · cases h3
  rcases List.mem_cons.mp h3 with h4 | h4
  · cases h4
  rcases List.mem_cons.mp h4 with h5 | h5
  · cases h5
  · exact hnl h5

theorem singleton_isPrefixOf_iff (c : Char) (l : List Char) :
    [c].isPrefixOf l = true ↔ l.head? = some c := by
  rw [ List.isPrefixOf_iff_prefix]
  constructor
  · rintro ⟨t, ht⟩
    rw [← ht]
    rfl
  · intro h
    rcases List.head?_eq_some_iff.mp h with ⟨ys, hys⟩
    exact ⟨ys, by rw [hys]; rfl⟩

example : classify_change ".github/workflows/ci.yml".toList [] = "ci".toList := by decide
example : classify_change "foo_test.go".toList [] = "other".toList := by decide
example : classify_change "x.py".toList "-def foo():\n+def foo( ):\n-    pass\n+     pass\n".toList
    = "style".toList := by decide

/-! ## The claims -/

/-- C1: For every input DiffMap (distinct paths, as in a Python dict) and every
backend, the CommitGroups returned by `generate_groups` partition the DiffMap's
key set: the concatenation of the groups' `files` is a permutation of the key
list and has no duplicates (every path in exactly one group, none twice), and
the groups appear in the order their categories were first seen while
classifying paths in input order. -/
theorem C1_generate_groups_partition
    (gen : List Char → Except Unit (List Char)) (dm : List (List Char × List Char))
    (h : (dm.map Prod.fst).Nodup) :
    (((generate_groups gen dm).flatMap CommitGroup.files).Perm (dm.map Prod.fst)) ∧
    ((generate_groups gen dm).flatMap CommitGroup.files).Nodup ∧
    (generate_groups gen dm).map CommitGroup.type
      = firstSeen (dm.map fun pd => classify_change pd.1 pd.2) := by
  have hflat : (generate_groups gen dm).flatMap CommitGroup.files
      = (groupsOf dm).flatMap Prod.snd := by
    unfold generate_groups
    rw [List.flatMap_map]
  have hfst : (generate_groups gen dm).map CommitGroup.type
      = (groupsOf dm).map Prod.fst := by
    unfold generate_groups
    rw [List.map_map]
    rfl
  rw [hflat, hfst]
  have hperm := groupsOf_flat_perm dm
  exact ⟨hperm, hperm.symm.nodup h, groupsOf_fst_firstSeen dm⟩

/-- Witness for C1 at a concrete three-file DiffMap with two categories. -/
theorem C1_witness :
    (([("README.md".toList, ([] : List Char)), ("tests/a.py".toList, []),
        ("HOWTO.md".toList, [])].map Prod.fst).Nodup) ∧
    ((((generate_groups (fun _ => .error ()) [("README.md".toList, []),
        ("tests/a.py".toList, []), ("HOWTO.md".toList, [])]).flatMap
        CommitGroup.files).Perm
        ([("README.md".toList, ([] : List Char)), ("tests/a.py".toList, []),
          ("HOWTO.md".toList, [])].map Prod.fst)) ∧
      ((generate_groups (fun _ => .error ()) [("README.md".toList, []),
        ("tests/a.py".toList, []), ("HOWTO.md".toList, [])]).flatMap
        CommitGroup.files).Nodup ∧
      (generate_groups (fun _ => .error ()) [("README.md".toList, []),
        ("tests/a.py".toList, []), ("HOWTO.md".toList, [])]).map CommitGroup.type
        = firstSeen ([("README.md".toList, ([] : List Char)), ("tests/a.py".toList, []),
            ("HOWTO.md".toList, [])].map fun pd => classify_change pd.1 pd.2)) :=
  ⟨by decide, C1_generate_groups_partition _ _ (by decide)⟩

/-- C2 (amended): when the backend call for a group fails, the group's final
message is the deterministic fallback, whose subject line is
`"[c]: Changes to <n> file(s)"` with `n` the number of files and pluralization
by count. -/
theorem C2_fallback_on_backend_failure
    (gen : List Char → Except Unit (List Char)) (dm : List (List Char × List Char))
    (t : List Char) (fs : List (List Char)) (hfs : fs ≠ [])
    (hgen : gen (build_prompt t fs dm) = .error ()) :
    group_message gen dm t fs = fallback_message t fs ∧
    (('[' :: t) ++ "]: Changes to ".toList ++ (Nat.repr fs.length).toList ++
        " file".toList ++ (if fs.length ≠ 1 then ['s'] else []))
      <+: group_message gen dm t fs := by
  have h1 := group_message_fallback hgen
  refine ⟨h1, ?_⟩
  rw [h1]
  unfold fallback_message fallback_subject
  exact ⟨"\n\n".toList ++ fallback_description ++ "\n\n".toList ++
    joinNL (fs.map fun f => "- ".toList ++ f), by simp⟩

/-- Witness for C2 at a two-file `test` group with an always-failing backend. -/
theorem C2_witness :
    (["tests/a.py".toList, "tests/b.py".toList] ≠ ([] : List (List Char))) ∧
    (group_message (fun _ => .error ()) [] "test".toList
        ["tests/a.py".toList, "tests/b.py".toList]
      = fallback_message "test".toList ["tests/a.py".toList, "tests/b.py".toList] ∧
    (('[' :: "test".toList) ++ "]: Changes to ".toList ++
        (Nat.repr (["tests/a.py".toList, "tests/b.py".toList] : List (List Char)).length).toList ++
        " file".toList ++
        (if (["tests/a.py".toList, "tests/b.py".toList] : List (List Char)).length ≠ 1
          then ['s'] else []))
      <+: group_message (fun _ => .error ()) [] "test".toList
        ["tests/a.py".toList, "tests/b.py".toList]) :=
  ⟨by decide, C2_fallback_on_backend_failure (fun _ => .error ()) [] "test".toList
    ["tests/a.py".toList, "tests/b.py".toList] (by decide) rfl⟩

/-- C2 counterexample: for a two-file group classified `test` whose backend call
fails, the final message starts with `"[test]: Changes to 2 files"`, not with
`"[test]: update 2 files"` as the claim states. -/
theorem C2_counterexample :
    ((generate_groups (fun _ => .error ())
        [("tests/a.py".toList, []), ("tests/b.py".toList, [])]).map
        fun g => (g.type, g.files))
      = [("test".toList, ["tests/a.py".toList, "tests/b.py".toList])] ∧
    ∀ g ∈ generate_groups (fun _ => .error ())
        [("tests/a.py".toList, []), ("tests/b.py".toList, [])],
      "[test]: Changes to 2 files".toList.isPrefixOf g.message = true ∧
      "[test]: update 2 files".toList.isPrefixOf g.message = false := by
  decide

/-- C3 (amended): normalizing twice equals normalizing once for every category
and every message whose first line strips to something non-empty. -/
theorem C3_normalize_idempotent (m c : List Char) (hc : c ∈ normalizeTypes)
    (hfl : pyStrip ((splitlinesL m).headD []) ≠ []) :
    (normalize_message m c).bind (fun r => normalize_message r c)
      = normalize_message m c :=
  normalize_message_idempotent hc hfl

/-- Witness for C3 on a message with a subject and a body. -/
theorem C3_witness :
    ("feat".toList ∈ normalizeTypes ∧
      pyStrip ((splitlinesL "feat: add X\nBody".toList).headD []) ≠ []) ∧
    (normalize_message "feat: add X\nBody".toList "feat".toList).bind
        (fun r => normalize_message r "feat".toList)
      = normalize_message "feat: add X\nBody".toList "feat".toList :=
  ⟨⟨by decide, by decide⟩,
    C3_normalize_idempotent "feat: add X\nBody".toList "feat".toList
      (by decide) (by decide)⟩

/-- C3 counterexample: on `"\nBody"` (stripped form `"Body"`, non-empty) the
first pass produces the subject `"[feat]: "`, whose stripped form `"[feat]:"`
no longer matches the type pattern (no whitespace after the colon), so the
second pass prepends the prefix again. -/
theorem C3_counterexample :
    normalize_message "\nBody".toList "feat".toList = .ok "[feat]: \nBody".toList ∧
    (normalize_message "\nBody".toList "feat".toList).bind
        (fun r => normalize_message r "feat".toList)
      = .ok "[feat]: [feat]:\nBody".toList ∧
    (normalize_message "\nBody".toList "feat".toList).bind
        (fun r => normalize_message r "feat".toList)
      ≠ normalize_message "\nBody".toList "feat".toList := by
  decide

/-- C4: for every DiffMap and every backend (failing or not, on any subset of
groups), `generate_groups` returns one CommitGroup per classified bucket, with
the bucket's category and files — so a failure on one group never skips the
remaining groups and never propagates out — every group's message is
non-empty, and every group whose backend/extraction/normalization pipeline
fails is assigned exactly the fallback message for its category and files. -/
theorem C4_no_failure_propagates
    (gen : List Char → Except Unit (List Char)) (dm : List (List Char × List Char)) :
    ((generate_groups gen dm).map fun g => (g.type, g.files)) = groupsOf dm ∧
    ∀ g ∈ generate_groups gen dm,
      g.message ≠ [] ∧
      ((gen (build_prompt g.type g.files dm)).bind (fun raw =>
          (extract_commit_message raw).bind fun m => normalize_message m g.type)
            = .error () →
        g.message = fallback_message g.type g.files) := by
  constructor
  · unfold generate_groups
    rw [List.map_map]
    have h0 : ∀ l : List (List Char × List (List Char)), (l.map fun b => (b.1, b.2)) = l := by
      intro l
      induction l with
      | nil => rfl
      | cons x xs ih => rw [List.map_cons, ih]
    exact h0 (groupsOf dm)
  · intro g hg
    unfold generate_groups at hg
    rcases List.mem_map.mp hg with ⟨b, hb, hbe⟩
    rw [← hbe]
    exact ⟨group_message_ne_nil gen dm b.1 b.2,
      fun h => group_message_pipeline_error h⟩

/-- C5 (amended): when the extension/path rules 1-3 do not match, both removed
and added content lines exist, and the concatenation of the removed lines with
all whitespace stripped equals that of the added lines (in diff order),
`classify_change` returns `style`. -/
theorem C5_style_on_equal_concat (p d : List Char)
    (hdocs : ¬ (lowerL (pySuffix p) = ".md".toList ∨ lowerL (pySuffix p) = ".rst".toList ∨
      lowerL (pySuffix p) = ".txt".toList ∨ lowerL (pySuffix p) = ".adoc".toList))
    (htest : ¬ (("test_".toList.isPrefixOf (pyName p)) = true ∨
      ("_test.py".toList.isSuffixOf (pyName p)) = true ∨ "tests".toList ∈ pyParts p))
    (hbuild : ¬ (pyName p = "Dockerfile".toList ∨ pyName p = "docker-compose.yml".toList ∨
      pySuffix p = ".yaml".toList ∨ pySuffix p = ".yml".toList))
    (hminus : minusLines d ≠ []) (hplus : plusLines d ≠ [])
    (heq : concatStripWS (minusLines d) = concatStripWS (plusLines d)) :
    classify_change p d = "style".toList := by
  have hchanged : changedLines d ≠ [] := by
    intro h0
    apply hminus
    unfold minusLines
    rw [h0]
    rfl
  unfold classify_change
  rw [if_neg hdocs, if_neg htest, if_neg hbuild,
    if_pos ⟨hchanged, hminus, hplus, heq⟩]

/-- Witness for C5: a one-line whitespace-only reformatting of a `.py` file. -/
theorem C5_witness :
    (¬ (lowerL (pySuffix "x.py".toList) = ".md".toList ∨
        lowerL (pySuffix "x.py".toList) = ".rst".toList ∨
        lowerL (pySuffix "x.py".toList) = ".txt".toList ∨
        lowerL (pySuffix "x.py".toList) = ".adoc".toList) ∧
      ¬ (("test_".toList.isPrefixOf (pyName "x.py".toList)) = true ∨
        ("_test.py".toList.isSuffixOf (pyName "x.py".toList)) = true ∨
        "tests".toList ∈ pyParts "x.py".toList) ∧
      ¬ (pyName "x.py".toList = "Dockerfile".toList ∨
        pyName "x.py".toList = "docker-compose.yml".toList ∨
        pySuffix "x.py".toList = ".yaml".toList ∨
        pySuffix "x.py".toList = ".yml".toList) ∧
      minusLines "-a b\n+ab".toList ≠ [] ∧ plusLines "-a b\n+ab".toList ≠ [] ∧
      concatStripWS (minusLines "-a b\n+ab".toList)
        = concatStripWS (plusLines "-a b\n+ab".toList)) ∧
    classify_change "x.py".toList "-a b\n+ab".toList = "style".toList :=
  ⟨⟨by decide, by decide, by decide, by decide, by decide, by decide⟩,
    C5_style_on_equal_concat "x.py".toList "-a b\n+ab".toList
      (by decide) (by decide) (by decide) (by decide) (by decide) (by decide)⟩

/-- C5 counterexample: the per-line multiset condition of the claim holds (the
stripped removed lines are a permutation of the stripped added lines), rules
1-3 do not match, yet the classification is `other`, not `style`: the code
compares concatenations in diff order, which differ here. -/
theorem C5_counterexample :
    ((minusLines "-ab\n-c\n+c\n+ab".toList).map stripWS).Perm
      ((plusLines "-ab\n-c\n+c\n+ab".toList).map stripWS) ∧
    minusLines "-ab\n-c\n+c\n+ab".toList ≠ [] ∧
    plusLines "-ab\n-c\n+c\n+ab".toList ≠ [] ∧
    ¬ (lowerL (pySuffix "x.py".toList) = ".md".toList ∨
      lowerL (pySuffix "x.py".toList) = ".rst".toList ∨
      lowerL (pySuffix "x.py".toList) = ".txt".toList ∨
      lowerL (pySuffix "x.py".toList) = ".adoc".toList) ∧
    ¬ (("test_".toList.isPrefixOf (pyName "x.py".toList)) = true ∨
      ("_test.py".toList.isSuffixOf (pyName "x.py".toList)) = true ∨
      "tests".toList ∈ pyParts "x.py".toList) ∧
    ¬ (pyName "x.py".toList = "Dockerfile".toList ∨
      pyName "x.py".toList = "docker-compose.yml".toList ∨
      pySuffix "x.py".toList = ".yaml".toList ∨
      pySuffix "x.py".toList = ".yml".toList) ∧
    classify_change "x.py".toList "-ab\n-c\n+c\n+ab".toList = "other".toList := by
  decide

/-- C6 (amended): a file whose extension is not a documentation extension and
whose name ends with `"_test.py"` classifies as `test`, for every diff. -/
theorem C6_test_on_py_suffix (p d : List Char)
    (hdocs : ¬ (lowerL (pySuffix p) = ".md".toList ∨ lowerL (pySuffix p) = ".rst".toList ∨
      lowerL (pySuffix p) = ".txt".toList ∨ lowerL (pySuffix p) = ".adoc".toList))
    (hsuffix : ("_test.py".toList.isSuffixOf (pyName p)) = true) :
    classify_change p d = "test".toList := by
  unfold classify_change
  rw [if_neg hdocs, if_pos (Or.inr (Or.inl hsuffix))]

/-- Witness for C6 at `foo_test.py`. -/
theorem C6_witness :
    (¬ (lowerL (pySuffix "foo_test.py".toList) = ".md".toList ∨
        lowerL (pySuffix "foo_test.py".toList) = ".rst".toList ∨
        lowerL (pySuffix "foo_test.py".toList) = ".txt".toList ∨
        lowerL (pySuffix "foo_test.py".toList) = ".adoc".toList) ∧
      ("_test.py".toList.isSuffixOf (pyName "foo_test.py".toList)) = true) ∧
    classify_change "foo_test.py".toList [] = "test".toList :=
  ⟨⟨by decide, by decide⟩,
    C6_test_on_py_suffix "foo_test.py".toList [] (by decide) (by decide)⟩

/-- C6 counterexample: `foo_test.go` ends with `"_test"` immediately before its
extension and its extension is not a documentation extension, yet it is
classified `other`, not `test`: the code only recognizes `"_test.py"`. -/
theorem C6_counterexample :
    ¬ (lowerL (pySuffix "foo_test.go".toList) = ".md".toList ∨
      lowerL (pySuffix "foo_test.go".toList) = ".rst".toList ∨
      lowerL (pySuffix "foo_test.go".toList) = ".txt".toList ∨
      lowerL (pySuffix "foo_test.go".toList) = ".adoc".toList) ∧
    ("_test".toList.isSuffixOf ((pyName "foo_test.go".toList).take
      ((pyName "foo_test.go".toList).length
        - (pySuffix "foo_test.go".toList).length))) = true ∧
    classify_change "foo_test.go".toList [] ≠ "test".toList ∧
    classify_change "foo_test.go".toList [] = "other".toList := by
  decide

/-- C7: when the backend's raw text is
`"<think>reasoning</think>[feat]: add X\n\nBody."` for a `feat` group, the final
message (after the client's tag stripping, extraction and normalization)
starts with `"[feat]: add X"` and contains no `"<think>"` substring. -/
theorem C7_thinking_tags_stripped :
    group_message (fun _ => .ok (ollama_postprocess
        "<think>reasoning</think>[feat]: add X\n\nBody.".toList)) []
        "feat".toList ["src/app.py".toList]
      = "[feat]: add X\n\nBody.".toList ∧
    "[feat]: add X".toList.isPrefixOf "[feat]: add X\n\nBody.".toList = true ∧
    containsSub "<think>".toList "[feat]: add X\n\nBody.".toList = false := by
  decide

/-- C8 (amended): the collected changed lines are exactly the diff lines whose
first character is `'+'` or `'-'` and which do not start with `"++"` or `"--"`
(a two-character exclusion, not just the three-character `"+++"`/`"---"`
header markers). -/
theorem C8_changedLines_mem (d l : List Char) :
    l ∈ changedLines d ↔
      l ∈ splitlinesL d ∧ (l.head? = some '+' ∨ l.head? = some '-') ∧
      ¬ ("++".toList <+: l) ∧ ¬ ("--".toList <+: l) := by
  unfold changedLines
  rw [List.mem_filter]
  constructor
  · rintro ⟨h1, h2⟩
    rw [Bool.and_eq_true] at h2
    rcases h2 with ⟨h2a, h2b⟩
    rw [Bool.or_eq_true] at h2a
    rw [Bool.not_eq_true', Bool.or_eq_false_iff] at h2b
    refine ⟨h1, ?_, ?_, ?_⟩
    · rcases h2a with h | h
      · exact Or.inl ((singleton_isPrefixOf_iff '+' l).mp h)
      · exact Or.inr ((singleton_isPrefixOf_iff '-' l).mp h)
    · intro hpre
      have := List.isPrefixOf_iff_prefix.mpr hpre
      rw [h2b.1] at this
      cases this
    · intro hpre
      have := List.isPrefixOf_iff_prefix.mpr hpre
      rw [h2b.2] at this
      cases this
  · rintro ⟨h1, h2, h3, h4⟩
    refine ⟨h1, ?_⟩
    rw [Bool.and_eq_true]
    refine ⟨?_, ?_⟩
    · rw [Bool.or_eq_true]
      rcases h2 with h | h
      · exact Or.inl ((singleton_isPrefixOf_iff '+' l).mpr h)
      · exact Or.inr ((singleton_isPrefixOf_iff '-' l).mpr h)
    · rw [Bool.not_eq_true', Bool.or_eq_false_iff]
      constructor
      · cases hq : "++".toList.isPrefixOf l
        · rfl
        · exact absurd ( List.isPrefixOf_iff_prefix.mp hq) h3
      · cases hq : "--".toList.isPrefixOf l
        · rfl
        · exact absurd ( List.isPrefixOf_iff_prefix.mp hq) h4

/-- C8 counterexample: the one-line diff `"--x"` (a removed line whose content
starts with `'-'`) begins with `'-'` and is not a `"+++"`/`"---"` header, so
the claim says it is collected; the code collects nothing from it. -/
theorem C8_counterexample :
    changedLines "--x".toList = [] ∧
    "--x".toList ∈ splitlinesL "--x".toList ∧
    "--x".toList.head? = some '-' ∧
    "+++".toList.isPrefixOf "--x".toList = false ∧
    "---".toList.isPrefixOf "--x".toList = false := by
  decide

/-- C9 (amended): for every category and every message with non-empty stripped
form, the normalizer either returns its input unchanged or changes only the
subject line: the output is a newline-free subject followed by a newline and
the newline-join of the input's lines after the first (which reproduces those
lines except that a trailing empty line is dropped). -/
theorem C9_normalize_body_preserved (m c : List Char) (hc : c ∈ normalizeTypes)
    (hm : pyStrip m ≠ []) :
    ∃ r, normalize_message m c = .ok r ∧
      (r = m ∨ ∃ s, ('\n' ∉ s) ∧ r = s ++ '\n' :: joinNL (splitlinesL m).tail) := by
  have hmne : m ≠ [] := fun h0 => hm (by rw [h0]; rfl)
  rcases hsl : splitlinesL m with _ | ⟨l0, rest⟩
  · exact absurd hsl (splitlinesL_ne_nil hmne)
  · have hl0nl : '\n' ∉ l0 :=
      mem_splitlinesL_no_newline (by rw [hsl]; exact List.mem_cons_self _ _)
    have hsubnl : '\n' ∉ pyStrip l0 := fun hmem => hl0nl (mem_pyStrip hmem)
    rcases hp : parseTypeTag normalizeTypes (pyStrip l0) with _ | ⟨t, r1⟩
    · have heval : normalize_message m c
          = .ok ((('[' :: c) ++ "]: ".toList ++ pyStrip l0) ++ '\n' :: joinNL rest) := by
        unfold normalize_message
        rw [if_neg hm, hsl]
        simp only [hp]
      exact ⟨_, heval, Or.inr ⟨('[' :: c) ++ "]: ".toList ++ pyStrip l0,
        no_newline_subject hc hsubnl, rfl⟩⟩
    · by_cases ht : t = lowerL c
      · by_cases hbrk : matchesBracketType c (pyStrip l0) = true
        · have heval : normalize_message m c = .ok m := by
            unfold normalize_message
            rw [if_neg hm, hsl]
            simp only [hp]
            rw [if_pos ht, if_pos hbrk]
          exact ⟨m, heval, Or.inl rfl⟩
        · rcases parse_rest_props (pyStrip_idem l0) hp with ⟨hrne, hrsub⟩
          have hrnl : '\n' ∉ pyStrip r1 := fun hmem => hsubnl (hrsub _ (mem_pyStrip hmem))
          have heval : normalize_message m c
              = .ok ((('[' :: c) ++ "]: ".toList ++ pyStrip r1) ++ '\n' :: joinNL rest) := by
            unfold normalize_message
            rw [if_neg hm, hsl]
            simp only [hp]
            rw [if_pos ht, if_neg hbrk]
          exact ⟨_, heval, Or.inr ⟨('[' :: c) ++ "]: ".toList ++ pyStrip r1,
            no_newline_subject hc hrnl, rfl⟩⟩
      · rcases parse_rest_props (pyStrip_idem l0) hp with ⟨hrne, hrsub⟩
        have hrnl : '\n' ∉ pyStrip r1 := fun hmem => hsubnl (hrsub _ (mem_pyStrip hmem))
        have heval : normalize_message m c
            = .ok ((('[' :: c) ++ "]: ".toList ++ pyStrip r1) ++ '\n' :: joinNL rest) := by
          unfold normalize_message
          rw [if_neg hm, hsl]
          simp only [hp]
          rw [if_neg ht]
        exact ⟨_, heval, Or.inr ⟨('[' :: c) ++ "]: ".toList ++ pyStrip r1,
          no_newline_subject hc hrnl, rfl⟩⟩

/-- Witness for C9 on a two-line message that gets its subject rewritten. -/
theorem C9_witness :
    ("feat".toList ∈ normalizeTypes ∧ pyStrip "feat: x\nBody".toList ≠ []) ∧
    (∃ r, normalize_message "feat: x\nBody".toList "feat".toList = .ok r ∧
      (r = "feat: x\nBody".toList ∨
        ∃ s, ('\n' ∉ s) ∧
          r = s ++ '\n' :: joinNL (splitlinesL "feat: x\nBody".toList).tail)) :=
  ⟨⟨by decide, by decide⟩,
    C9_normalize_body_preserved "feat: x\nBody".toList "feat".toList
      (by decide) (by decide)⟩

/-- C9 counterexample: on `"feat: hello\n\n"` the input's lines after the first
are `[""]` but the output's are `[]`: the trailing empty line is not preserved
verbatim. -/
theorem C9_counterexample :
    normalize_message "feat: hello\n\n".toList "feat".toList
      = .ok "[feat]: hello\n".toList ∧
    (splitlinesL "[feat]: hello\n".toList).tail
      ≠ (splitlinesL "feat: hello\n\n".toList).tail := by
  decide

/-- C10: for every raw response with non-empty stripped form, extraction
succeeds and returns either the whole response trimmed or the trimmed
newline-join of a trailing slice of its lines; the result is non-empty and
occurs contiguously in the input. -/
theorem C10_extract_slices (raw : List Char) (hne : pyStrip raw ≠ []) :
    ∃ r, extract_commit_message raw = .ok r ∧ r ≠ [] ∧
      ((∃ i, r = pyStrip (joinNL ((splitlinesL raw).drop i))) ∨ r = pyStrip raw) ∧
      ∃ u v, u ++ r ++ v = raw := by
  have hinfix : ∀ i, ∃ u v,
      u ++ pyStrip (joinNL ((splitlinesL raw).drop i)) ++ v = raw := by
    intro i
    rcases pyStrip_decomp (joinNL ((splitlinesL raw).drop i)) with ⟨u1, v1, huv1⟩
    rcases joinNL_drop_isSuffix i (splitlinesL raw) with ⟨t1, ht1⟩
    have hcore : (t1 ++ u1) ++ pyStrip (joinNL ((splitlinesL raw).drop i)) ++ v1
        = joinNL (splitlinesL raw) := by
      simp only [List.append_assoc]
      simp only [List.append_assoc] at huv1
      rw [huv1]
      exact ht1
    rcases joinNL_splitlinesL raw with hj | hj
    · exact ⟨t1 ++ u1, v1, by rw [hcore]; exact hj.symm⟩
    · refine ⟨t1 ++ u1, v1 ++ ['\n'], ?_⟩
      have h2 : (t1 ++ u1) ++ pyStrip (joinNL ((splitlinesL raw).drop i)) ++ (v1 ++ ['\n'])
          = ((t1 ++ u1) ++ pyStrip (joinNL ((splitlinesL raw).drop i)) ++ v1) ++ ['\n'] := by
        simp [List.append_assoc]
      rw [h2, hcore]
      exact hj.symm
  unfold extract_commit_message
  rw [if_neg hne]
  rcases hp1 : extractPass1 (splitlinesL raw) with _ | suf
  · rcases hp2 : extractPass2 (splitlinesL raw) with _ | suf2
    · exact ⟨pyStrip raw, rfl, hne, Or.inr rfl, pyStrip_decomp raw⟩
    · rcases extractPass2_spec _ _ hp2 with ⟨⟨i, hi⟩, l0, tl, hsuf, hl0⟩
      refine ⟨pyStrip (joinNL suf2), rfl, ?_, Or.inl ⟨i, by rw [hi]⟩, ?_⟩
      · rw [hsuf]
        exact pyStrip_joinNL_cons_ne hl0
      · rw [hi]
        exact hinfix i
  · rcases extractPass1_spec _ _ hp1 with ⟨⟨i, hi⟩, l0, tl, hsuf, hl0⟩
    refine ⟨pyStrip (joinNL suf), rfl, ?_, Or.inl ⟨i, by rw [hi]⟩, ?_⟩
    · rw [hsuf]
      exact pyStrip_joinNL_cons_ne hl0
    · rw [hi]
      exact hinfix i

/-- Witness for C10 on a short multi-line response. -/
theorem C10_witness :
    pyStrip "note\nfix: adjust parser\n\nBody".toList ≠ [] ∧
    (∃ r, extract_commit_message "note\nfix: adjust parser\n\nBody".toList = .ok r ∧
      r ≠ [] ∧
      ((∃ i, r = pyStrip (joinNL
          ((splitlinesL "note\nfix: adjust parser\n\nBody".toList).drop i))) ∨
        r = pyStrip "note\nfix: adjust parser\n\nBody".toList) ∧
      ∃ u v, u ++ r ++ v = "note\nfix: adjust parser\n\nBody".toList) :=
  ⟨by decide, C10_extract_slices "note\nfix: adjust parser\n\nBody".toList (by decide)⟩

end Aicheckin
